import Mathlib

/-!
Verification of the factorio-tech-tree repository.

This file gives a shallow embedding, in Lean 4, of the core logic of the
`factorio-tech-tree` repository:

* the dependency resolver and graph builder of `app/page.tsx`
  (`loadTechTree`): line splitting, sanitized prerequisite lists, the
  fixed-point leveling loop, and the fallback pass for residual cycles;
* the layout engine, edge-path generation, zoom controller and
  selection/highlight logic of `app/tech-graph.tsx`;
* the image-serving route handler (`resolveImagePath` / `GET`).

Modeling conventions:

* JavaScript `Map` objects are modeled as association lists.  A map built
  once from an entry list (`new Map(entries)`) is read with `mapGet?`
  (the *last* entry for a key wins, as in JavaScript).  A map populated
  imperatively with `set` is modeled by prepending the new entry and
  reading with `mget?` (the most recent `set` wins, as in JavaScript).
* JavaScript `Set`s are modeled as duplicate-free lists in insertion
  order.
* JavaScript numbers are modeled as `Nat` where the program only ever
  produces non-negative integers (levels, node sizes) and as `ℚ` where
  division occurs (layout coordinates, zoom transforms); the algebra of
  the source is exact at these magnitudes, so `ℚ` captures the intended
  arithmetic while ignoring floating-point rounding.
* POSIX path strings are split into their `/`-separated segments at the
  boundary of the path model; see the image-route section.
-/

/-- Lookup in an association list where the *most recently prepended*
entry wins: the read model for a JavaScript `Map` populated by `set`
(each `set k v` is modeled as prepending `(k, v)`). -/
def mget? {α : Type} (l : List (String × α)) (k : String) : Option α :=
  (l.find? (fun p => p.1 == k)).map Prod.snd

/-- Lookup in an association list where the *last* entry for a key wins:
the read model for `new Map(entries)` in JavaScript, whose constructor
inserts entries in order so that later entries overwrite earlier ones. -/
def mapGet? {α : Type} (l : List (String × α)) (k : String) : Option α :=
  mget? l.reverse k

/-- `Math.max(0, x₁, …, xₙ)` over a list of naturals; for a non-empty
list of naturals this is exactly `Math.max(...xs)` of the source. -/
def listMax (l : List Nat) : Nat :=
  l.foldl Nat.max 0

/-- Duplicate removal keeping the *first* occurrence of each element, in
order: the element sequence of a JavaScript `Set` built from a list. -/
def dedupFirst {α : Type} [DecidableEq α] : List α → List α
  | [] => []
  | x :: xs => x :: (dedupFirst xs).filter (fun y => y ≠ x)


/-! ## The data model of `app/page.tsx` (`TechNode`) -/

/-- A raw dataset record (`TechNode` in `app/page.tsx`). -/
structure TechNode where
  id : String
  title : String
  required_technologies : Option (List String) := none
  required_technologies_merged : Option (List String) := none
  image_path : Option String := none
deriving Repr, DecidableEq

/-! ## The dependency resolver of `app/page.tsx` (`loadTechTree`)

The second (graph) variant of `loadTechTree` is embedded: it subsumes the
first and is the one the claims reference.  `Math.max(...resolved.map(…))`
is modeled by `listMax`, which agrees with it on the non-empty lists of
naturals the source applies it to. -/

/-- `node.required_technologies_merged ?? node.required_technologies ?? []`. -/
def rawDeps (n : TechNode) : List String :=
  (n.required_technologies_merged.getD (n.required_technologies.getD []))

/-- The ids of the dataset, in order (`nodes.map(node => node.id)`). -/
def idsOf (nodes : List TechNode) : List String :=
  nodes.map (·.id)

/-- The entry list of the `nodesById` map. -/
def nodesById (nodes : List TechNode) : List (String × TechNode) :=
  nodes.map (fun n => (n.id, n))

/-- The entry list of the `raw_dependencies` map. -/
def raw_dependencies (nodes : List TechNode) : List (String × List String) :=
  nodes.map (fun n => (n.id, rawDeps n))

/-- `self_loop_ids`: ids of nodes that list themselves among their raw
(merged or direct) prerequisites. -/
def self_loop_ids (nodes : List TechNode) : List String :=
  (nodes.filter (fun n =>
    (n.required_technologies_merged.getD []).contains n.id ||
      (n.required_technologies.getD []).contains n.id)).map (·.id)

/-- The entry list of the sanitized `dependencies` map: the raw
prerequisite list with self-references dropped, then references to
unknown ids dropped. -/
def dependencies (nodes : List TechNode) : List (String × List String) :=
  nodes.map (fun n =>
    (n.id,
      (((mapGet? (raw_dependencies nodes) n.id).getD []).filter
          (fun dep => dep ≠ n.id)).filter
        (fun dep => (mapGet? (nodesById nodes) dep).isSome)))

/-- `dependencies.get(id) ?? []`: the sanitized prerequisite list the
resolver loop and fallback pass consult. -/
def depsOf (nodes : List TechNode) (id : String) : List String :=
  (mapGet? (dependencies nodes) id).getD []

/-- The mutable state of the fixed-point loop: the `levels` map, the
`rootIds` set and the `remaining` set. -/
structure RState where
  levels : List (String × Nat)
  roots : List String
  rem : List String
deriving Repr, DecidableEq

/-- One iteration of the `for (const id of Array.from(remaining))` body:
a node with no sanitized prerequisites becomes a root at level 0; a node
all of whose prerequisites have levels gets `1 + max` of them; otherwise
the state is unchanged.  Mutating `levels`/`rootIds`/`remaining` is
modeled by rebuilding the state. -/
def procId (deps : String → List String) (st : RState) (id : String) : RState :=
  let ds := deps id
  if ds.isEmpty then
    ⟨(id, 0) :: st.levels, st.roots ++ [id], st.rem.erase id⟩
  else
    let resolved := ds.filter (fun d => (mget? st.levels d).isSome)
    if resolved.length = ds.length then
      let maxLevel := listMax (resolved.map (fun d => (mget? st.levels d).getD 0))
      ⟨(id, maxLevel + 1) :: st.levels, st.roots, st.rem.erase id⟩
    else
      st

/-- One full pass of the `while` loop over the snapshot
`Array.from(remaining)` of the current remaining set. -/
def runPass (deps : String → List String) (st : RState) : RState :=
  st.rem.foldl (procId deps) st

/-- The `while (remaining.size > 0 && remaining.size < remainingLast)`
loop: keep running passes while the remaining set is non-empty and the
previous pass made progress.  The recursion is fueled by the size of the
current remaining set: every continued pass strictly shrinks
`remaining`, so a fuel of `remaining.size` can never run out (the
fuel-zero case is only reached with an empty remaining set; see
`loopGo_inv`). -/
def loopGo (deps : String → List String) : Nat → RState → RState
  | 0, st => st
  | fuel + 1, st =>
    if st.rem.length = 0 then st
    else if (runPass deps st).rem.length < st.rem.length then
      loopGo deps fuel (runPass deps st)
    else runPass deps st

/-- The state before the loop: empty `levels` and `rootIds`, `remaining`
initialized to `new Set(nodes.map(node => node.id))`. -/
def initState (nodes : List TechNode) : RState :=
  ⟨[], [], dedupFirst (idsOf nodes)⟩

/-- The resolver state after the fixed-point loop stalls (or empties). -/
def afterLoop (nodes : List TechNode) : RState :=
  loopGo (depsOf nodes) (initState nodes).rem.length (initState nodes)

/-- The fallback pass (`for (const id of remaining)`), which reads and
writes the *live* `levels` map: the prerequisite levels visible for a
node include fallback levels assigned to nodes processed earlier in this
very pass. -/
def fallbackFold (deps : String → List String) (levels : List (String × Nat))
    (rem : List String) : List (String × Nat) :=
  rem.foldl
    (fun lv id =>
      let resolved := (deps id).filterMap (fun d => mget? lv d)
      let fallbackLevel := if 0 < resolved.length then listMax resolved + 1 else 0
      (id, fallbackLevel) :: lv)
    levels

/-- The final `levels` map of `loadTechTree`, after the fixed-point loop
and the fallback pass. -/
def finalLevels (nodes : List TechNode) : List (String × Nat) :=
  fallbackFold (depsOf nodes) (afterLoop nodes).levels (afterLoop nodes).rem

/-- A sanitized prerequisite edge: `depStep nodes a b` holds when `b` is
among the sanitized prerequisites of `a`. -/
def depStep (nodes : List TechNode) (a b : String) : Prop :=
  b ∈ depsOf nodes a

/-- Acyclicity of the sanitized prerequisite graph: no node depends on
itself through a non-empty chain of sanitized prerequisite edges. -/
def AcyclicDeps (nodes : List TechNode) : Prop :=
  ¬ ∃ a, Relation.TransGen (depStep nodes) a a

/-! ## The graph builder of `app/page.tsx` -/

/-- A science pack entry of a node's research cost (`ResearchSciencePack`). -/
structure SciencePack where
  name : String
  amount_per_unit : Option ℚ := none
  amount_text : Option String := none
deriving Repr, DecidableEq

/-- Structured research cost data (`ResearchScience`). -/
structure ResearchScience where
  time_seconds : Option ℚ := none
  time_text : Option String := none
  unit_count : Option ℚ := none
  unit_count_text : Option String := none
  science_packs : List SciencePack := []
deriving Repr, DecidableEq

/-- A resolved graph node (`GraphNode` of `app/tech-graph.tsx`; the
builder in `app/page.tsx` produces the same shape with the research
fields absent). -/
structure GraphNode where
  id : String
  title : String
  image_path : Option String := none
  prerequisites : List String := []
  level : Nat := 0
  is_infinite : Bool := false
  research_type : Option String := none
  research_science : Option ResearchScience := none
deriving Repr, DecidableEq

/-- A derived edge (`GraphEdge`).  `from` and `to` are reserved words in
Lean, so the fields are named `from_` and `to_`. -/
structure GraphEdge where
  id : String
  from_ : String
  to_ : String
deriving Repr, DecidableEq

/-- The `graph_nodes` array built from the resolved dataset. -/
def graph_nodesOf (nodes : List TechNode) : List GraphNode :=
  nodes.map (fun n =>
    { id := n.id
      title := n.title
      image_path := n.image_path
      prerequisites := depsOf nodes n.id
      level := (mget? (finalLevels nodes) n.id).getD 0
      is_infinite := (self_loop_ids nodes).contains n.id })

/-- The derived edge list: one edge `"<prereq>::<node>"` per sanitized
prerequisite pair, in builder order. -/
def edgesOf (nodes : List TechNode) : List GraphEdge :=
  ((graph_nodesOf nodes).map (fun gn =>
    gn.prerequisites.map (fun dep => GraphEdge.mk (dep ++ "::" ++ gn.id) dep gn.id))).flatten

/-! ## Layout constants of `app/tech-graph.tsx` -/

def node_width : Nat := 300
def node_gap_x : Nat := 80
def node_gap_y : Nat := 110
def canvas_padding : Nat := 80
def min_zoom : ℚ := 0.35
def max_zoom : ℚ := 2.5
def node_padding_y : Nat := 28
def node_item_gap : Nat := 10
def node_icon_size : Nat := 72
def node_title_height : Nat := 36
def node_meta_height : Nat := 12
def science_pack_size : Nat := 56
def science_pack_gap : Nat := 6

/-- The fixed science-pack display-name → internal-name table
(`science_pack_name_map`), as a partial lookup function. -/
def science_pack_name_map : String → Option String
  | "Automation science pack" => some "automation_science_pack"
  | "Logistic science pack" => some "logistic_science_pack"
  | "Military science pack" => some "military_science_pack"
  | "Chemical science pack" => some "chemical_science_pack"
  | "Production science pack" => some "production_science_pack"
  | "Utility science pack" => some "utility_science_pack"
  | "Space science pack" => some "space_science_pack"
  | "Metallurgic science pack" => some "metallurgic_science_pack"
  | "Agricultural science pack" => some "agricultural_science_pack"
  | "Electromagnetic science pack" => some "electromagnetic_science_pack"
  | "Cryogenic science pack" => some "cryogenic_science_pack"
  | "Promethium science pack" => some "promethium_science_pack"
  | _ => none

/-- `get_science_pack_icons`: the (internal name, display name) pairs of
a science node's recognized packs, capped at 12. -/
def get_science_pack_icons (node : GraphNode) : List (String × String) :=
  if node.research_type = some "science" then
    match node.research_science with
    | some rs =>
        (rs.science_packs.filterMap (fun pack =>
          (science_pack_name_map pack.name).map (fun internal => (internal, pack.name)))).take 12
    | none => []
  else []

/-- `get_node_height`: deterministic per-node card height. -/
def get_node_height (node : GraphNode) : Nat :=
  let science_icons := get_science_pack_icons node
  let rows := (science_icons.length + 3) / 4
  let science_height :=
    if 0 < rows then rows * science_pack_size + (rows - 1) * science_pack_gap else 0
  let gap_count := if 0 < rows then 3 else 2
  node_padding_y + node_icon_size + node_title_height + node_meta_height +
    science_height + gap_count * node_item_gap

/-! ## The layout engine (`build_layout` of `app/tech-graph.tsx`) -/

/-- Lexicographic (code-point) comparison of character lists:
`lexLeb x y` holds when `x` is not greater than `y` in dictionary
order. -/
def lexLeb : List Char → List Char → Bool
  | [], _ => true
  | _ :: _, [] => false
  | a :: as, b :: bs => if a < b then true else if b < a then false else lexLeb as bs

/-- The comparator of the within-level sort.  The source sorts with
`(a, b) => a.title.localeCompare(b.title)` using JavaScript's stable
`Array.prototype.sort`; the locale comparison is modeled as the
lexicographic (code-point) order on the titles' character lists, and
the stable sort with this total preorder is modeled by
`List.insertionSort`. -/
def titleLe (a b : GraphNode) : Prop :=
  lexLeb a.title.data b.title.data = true

instance : DecidableRel titleLe := fun a b =>
  inferInstanceAs (Decidable (lexLeb a.title.data b.title.data = true))

instance : IsTotal GraphNode titleLe := by
  constructor
  intro a b
  unfold titleLe
  generalize a.title.data = x
  generalize b.title.data = y
  induction x generalizing y with
  | nil => left; rfl
  | cons c cs ih =>
    cases y with
    | nil => right; rfl
    | cons d ds =>
      rcases lt_trichotomy c d with hcd | hcd | hcd
      · left
        simp [lexLeb, hcd]
      · subst hcd
        rcases ih ds with h | h
        · left
          simpa [lexLeb] using h
        · right
          simpa [lexLeb] using h
      · right
        simp [lexLeb, hcd]

instance : IsTrans GraphNode titleLe := by
  constructor
  intro a b c
  unfold titleLe
  generalize a.title.data = x
  generalize b.title.data = y
  generalize c.title.data = z
  induction x generalizing y z with
  | nil => intro _ _; rfl
  | cons u us ih =>
    cases y with
    | nil => intro h; simp [lexLeb] at h
    | cons v vs =>
      cases z with
      | nil =>
        intro _ h
        simp [lexLeb] at h
      | cons w ws =>
        intro h1 h2
        rcases lt_trichotomy u v with huv | huv | huv
        · rcases lt_trichotomy v w with hvw | hvw | hvw
          · simp [lexLeb, lt_trans huv hvw]
          · subst hvw
            simp [lexLeb, huv]
          · exfalso
            simp [lexLeb, hvw, not_lt_of_gt hvw] at h2
        · subst huv
          rcases lt_trichotomy u w with huw | huw | huw
          · simp [lexLeb, huw]
          · subst huw
            simp only [lexLeb, lt_irrefl, if_false] at h1 h2 ⊢
            exact ih vs ws h1 h2
          · exfalso
            simp [lexLeb, huw, not_lt_of_gt huw] at h2
        · exfalso
          simp [lexLeb, huv, not_lt_of_gt huv] at h1

/-- The nodes of one level, in dataset order (the value list of
`nodes_by_level` for that key). -/
def levelGroup (nodes : List GraphNode) (l : Nat) : List GraphNode :=
  nodes.filter (fun n => n.level = l)

/-- The nodes of one level after the within-level stable sort by title. -/
def sortedLevel (nodes : List GraphNode) (l : Nat) : List GraphNode :=
  List.insertionSort titleLe (levelGroup nodes l)

/-- The `sizes` record: each node's id mapped to its fixed width and
computed height (assignment order = dataset order, later wins). -/
def sizesOf (nodes : List GraphNode) : List (String × Nat × Nat) :=
  nodes.map (fun n => (n.id, node_width, get_node_height n))

/-- The largest level occurring among the nodes (`max_level`, folded from
0 with `Math.max`). -/
def maxLevelOf (nodes : List GraphNode) : Nat :=
  listMax (nodes.map (·.level))

/-- `max_nodes_per_level`: the widest level's node count, at least 1. -/
def maxNodesPerLevel (nodes : List GraphNode) : Nat :=
  Nat.max 1 (listMax ((dedupFirst (nodes.map (·.level))).map
    (fun l => (levelGroup nodes l).length)))

/-- The canvas width. -/
def layoutWidth (nodes : List GraphNode) : Nat :=
  maxNodesPerLevel nodes * node_width + (maxNodesPerLevel nodes - 1) * node_gap_x +
    canvas_padding * 2

/-- The height of one level's row: the max height among its nodes, read
back through the `sizes` record (`sizes[node.id]?.height ?? 0`). -/
def rowHeight (nodes : List GraphNode) (l : Nat) : Nat :=
  listMax ((sortedLevel nodes l).map
    (fun n => ((mapGet? (sizesOf nodes) n.id).map Prod.snd).getD 0))

/-- The canvas height: padding, all row heights, and inter-row gaps. -/
def layoutHeight (nodes : List GraphNode) : Nat :=
  canvas_padding * 2 +
    (((List.range (maxLevelOf nodes + 1)).map (rowHeight nodes)).sum) +
    (maxLevelOf nodes + 1 - 1) * node_gap_y

/-- The `current_y` cursor at the start of level `l`. -/
def rowY (nodes : List GraphNode) : Nat → Nat
  | 0 => canvas_padding
  | l + 1 => rowY nodes l + rowHeight nodes l + node_gap_y

/-- The rendered width of one level's row. -/
def rowWidth (nodes : List GraphNode) (l : Nat) : Nat :=
  (sortedLevel nodes l).length * node_width +
    ((sortedLevel nodes l).length - 1) * node_gap_x

/-- The x coordinate of the first node of a row: rows are centered
against the widest row. -/
def offsetX (nodes : List GraphNode) (l : Nat) : ℚ :=
  (canvas_padding : ℚ) +
    max 0 (((layoutWidth nodes : ℚ) - (canvas_padding : ℚ) * 2 - (rowWidth nodes l : ℚ)) / 2)

/-- The `positions` entries contributed by one level, in assignment
order. -/
def rowPositions (nodes : List GraphNode) (l : Nat) : List (String × ℚ × ℚ) :=
  (sortedLevel nodes l).enum.map (fun p =>
    (p.2.id, offsetX nodes l + (p.1 : ℚ) * ((node_width : ℚ) + (node_gap_x : ℚ)),
      (rowY nodes l : ℚ)))

/-- The full `positions` record, levels 0 through `max_level` in order. -/
def positionsOf (nodes : List GraphNode) : List (String × ℚ × ℚ) :=
  (((List.range (maxLevelOf nodes + 1)).map (rowPositions nodes))).flatten

/-- The result of `build_layout`. -/
structure Layout where
  width : Nat
  height : Nat
  positions : List (String × ℚ × ℚ)
  sizes : List (String × Nat × Nat)
deriving Repr, DecidableEq

/-- `build_layout`. -/
def build_layout (nodes : List GraphNode) : Layout :=
  ⟨layoutWidth nodes, layoutHeight nodes, positionsOf nodes, sizesOf nodes⟩

/-! ## Edge paths (`edges_with_paths` of `app/tech-graph.tsx`) -/

/-- The geometry of a drawn edge's cubic path.  The source serializes it
as the SVG string `M p0.1 p0.2 C p1.1 p1.2, p2.1 p2.2, p3.1 p3.2`, so
`p0`/`p3` are the curve endpoints and `p1`/`p2` the control points. -/
structure EdgePath where
  p0 : ℚ × ℚ
  p1 : ℚ × ℚ
  p2 : ℚ × ℚ
  p3 : ℚ × ℚ
deriving Repr, DecidableEq

/-- The cubic path of a drawn edge, given the endpoint positions: the
curve runs from the horizontal midpoint of the source's bottom edge
(`start`) to the horizontal midpoint of the target's top edge (`end`),
both control points at `mid_y`, 55% of the vertical distance from the
start. -/
def mkEdgePath (layout : Layout) (edge : GraphEdge) (from_pos to_pos : ℚ × ℚ) :
    EdgePath :=
  let from_size := mapGet? layout.sizes edge.from_
  let to_size := mapGet? layout.sizes edge.to_
  let start_x := from_pos.1 + (((from_size.map Prod.fst).getD node_width : Nat) : ℚ) / 2
  let start_y := from_pos.2 + (((from_size.map Prod.snd).getD 0 : Nat) : ℚ)
  let end_x := to_pos.1 + (((to_size.map Prod.fst).getD node_width : Nat) : ℚ) / 2
  let end_y := to_pos.2
  let mid_y := start_y + (end_y - start_y) * (0.55 : ℚ)
  ⟨(start_x, start_y), (start_x, mid_y), (end_x, mid_y), (end_x, end_y)⟩

/-- The body of the `edges.map(...)` arrow in `edges_with_paths`:
`null` (dropped) when an endpoint has no position or the edge is a
self-loop, otherwise the edge paired with its path. -/
def edgePathFn (layout : Layout) (edge : GraphEdge) :
    Option (GraphEdge × EdgePath) :=
  match mapGet? layout.positions edge.from_, mapGet? layout.positions edge.to_ with
  | some from_pos, some to_pos =>
    if edge.from_ = edge.to_ then none
    else some (edge, mkEdgePath layout edge from_pos to_pos)
  | _, _ => none

/-- `edges_with_paths`: the drawn edges with their cubic paths.  Edges
with an endpoint missing from the position map, or with
`from == to`, are dropped. -/
def edges_with_paths (layout : Layout) (edges : List GraphEdge) :
    List (GraphEdge × EdgePath) :=
  edges.filterMap (edgePathFn layout)

/-! ## The viewport controller (`update_zoom` of `app/tech-graph.tsx`) -/

/-- The pan/zoom transform state. -/
structure Transform where
  x : ℚ
  y : ℚ
  scale : ℚ
deriving Repr, DecidableEq

/-- The `clamp` helper: `Math.min(max, Math.max(min, value))`. -/
def clamp (value lo hi : ℚ) : ℚ :=
  min hi (max lo value)

/-- `update_zoom`: anchor-preserving zoom.  The anchor defaults,
coordinate-wise, to the viewport center `(rect_w / 2, rect_h / 2)`. -/
def update_zoom (rect_w rect_h : ℚ) (current : Transform) (next_scale : ℚ)
    (anchor_x? anchor_y? : Option ℚ) : Transform :=
  let anchor_x := anchor_x?.getD (rect_w / 2)
  let anchor_y := anchor_y?.getD (rect_h / 2)
  let scale := clamp next_scale min_zoom max_zoom
  let ratio := scale / current.scale
  ⟨anchor_x - (anchor_x - current.x) * ratio,
    anchor_y - (anchor_y - current.y) * ratio,
    scale⟩

/-! ## The selection & highlight engine (`app/tech-graph.tsx`) -/

/-- The incoming edges of the selected node (`edge.to_ === selected`). -/
def incomingEdges (edges : List GraphEdge) (sel : String) : List GraphEdge :=
  edges.filter (fun e => e.to_ = sel)

/-- The outgoing edges of the selected node (`edge.from === selected`). -/
def outgoingEdges (edges : List GraphEdge) (sel : String) : List GraphEdge :=
  edges.filter (fun e => e.from_ = sel)

/-- `highlighted_edge_ids`: the `Set` of ids of the selection's incoming
and outgoing edges, modeled as a `Finset`. -/
def highlighted_edge_ids (edges : List GraphEdge) (sel : String) : Finset String :=
  (((incomingEdges edges sel).map (·.id)) ++ ((outgoingEdges edges sel).map (·.id))).toFinset

/-- `is_highlighted` of the edge render loop. -/
def edge_is_highlighted (edges : List GraphEdge) (sel : String) (e : GraphEdge) : Prop :=
  e.id ∈ highlighted_edge_ids edges sel

/-- `is_dimmed` of the edge render loop:
`highlighted_edge_ids.size > 0 && !highlighted_edge_ids.has(edge.id)`. -/
def edge_is_dimmed (edges : List GraphEdge) (sel : String) (e : GraphEdge) : Prop :=
  0 < (highlighted_edge_ids edges sel).card ∧ e.id ∉ highlighted_edge_ids edges sel

/-! ## The dataset loader boundary (`loadTechTree`, lines 199–203)

`JSON.parse` is a host primitive; it is modeled as an abstract
`parse : String → Option TechNode`, `none` standing for a thrown
`SyntaxError` that propagates out of the loader.  The raw text enters
the model as its `"\n"`-split line list (`raw.split("\n")`). -/

/-- The kept lines: `lines.filter(line => line.trim().length > 0)`.
`line.trim().length > 0` holds exactly when the line contains a
non-whitespace character, which is how the check is expressed here. -/
def loadLines (lines : List String) : List String :=
  lines.filter (fun line => line.data.any (fun c => !c.isWhitespace))

/-- Sequential parsing of the kept lines (`.map(line => JSON.parse(line))`
with a thrown `SyntaxError` propagating out of `loadTechTree`): the
first failing line fails the whole load. -/
def parseAll (parse : String → Option TechNode) : List String → Option (List TechNode)
  | [] => some []
  | line :: rest =>
    match parse line, parseAll parse rest with
    | some n, some ns => some (n :: ns)
    | _, _ => none

/-- The parsed node list, or `none` when a kept line fails to parse. -/
def loadNodes (parse : String → Option TechNode) (lines : List String) :
    Option (List TechNode) :=
  parseAll parse (loadLines lines)

/-! ## The image route (`app/api/tech-image/route.ts`)

POSIX path semantics.  An absolute path `/a/b/c` is modeled by the list
of its segments, each a character list (`List Char`, the `data` of the
corresponding string); `process.cwd()` is an abstract absolute path
given by its segment list `cwd`.  The query parameter arrives as a
string and is split on `'/'` at the model boundary; segments never
contain `'/'`, so a relative path's `"/"`-joined rendering starts with
`".."` exactly when its first segment does, which is how the final
`relative.startsWith("..")` / `path.isAbsolute(relative)` checks are
expressed on segment lists below.  `path.normalize`'s preservation of a
trailing slash is not modeled: it affects neither the accept/reject
decision nor which file is read.  `fs.readFile` is abstracted as a
function from the resolved absolute path to `Option` of its contents,
`none` standing for a thrown read error. -/

/-- Split a character list on a separator character, like
`String.splitOn` with a single-character separator:
`splitOnChar '/' "a/b".data = ["a".data, "b".data]`, and the empty
input yields one empty piece. -/
def splitOnChar (sep : Char) : List Char → List (List Char)
  | [] => [[]]
  | c :: rest =>
    match splitOnChar sep rest with
    | [] => [[c]]
    | g :: gs => if c = sep then [] :: g :: gs else (c :: g) :: gs

/-- Split a path string into raw segments (`"/"`-separated). -/
def splitSegs (s : String) : List (List Char) :=
  splitOnChar '/' s.data

/-- The segment pass of `path.normalize` (POSIX): drop empty and `"."`
segments, resolve `".."` against the accumulated prefix — popping a
real segment, collapsing at the root of an absolute path, and
accumulating at the front of a relative path. -/
def normStack (isAbs : Bool) : List (List Char) → List (List Char) → List (List Char)
  | acc, [] => acc.reverse
  | acc, seg :: rest =>
    if seg = [] ∨ seg = ['.'] then normStack isAbs acc rest
    else if seg = ['.', '.'] then
      match acc with
      | [] => if isAbs then normStack isAbs [] rest else normStack isAbs [['.', '.']] rest
      | top :: acc' =>
        if top = ['.', '.'] then normStack isAbs (['.', '.'] :: top :: acc') rest
        else normStack isAbs acc' rest
    else normStack isAbs (seg :: acc) rest

/-- Strip repetitions of `"..\\"` from the front of one segment: the
within-segment part of the route's `replace(/^(\.\.(\/|\\|$))+/, "")`. -/
def stripSeg1 : List Char → List Char
  | '.' :: '.' :: '\\' :: rest => stripSeg1 rest
  | s => s

/-- The leading-`".."` strip of the route
(`normalized.replace(/^(\.\.(\/|\\|$))+/, "")`) on the normalized
relative path's segments.  Each repetition of the regex consumes `".."`
followed by `"/"` (a whole leading segment), `"\\"` (inside the leading
segment), or the end of the string; the match stops at the first
position where none of the three applies — in particular a `"/"` left
exposed by an in-segment `"..\\"` strip ends the match, leaving the
remaining segments untouched. -/
def stripSegs : List (List Char) → List (List Char)
  | [] => []
  | s :: rest =>
    let s' := stripSeg1 s
    if s' = ['.', '.'] then stripSegs rest
    else if s' = [] then rest
    else s' :: rest

/-- Common-prefix removal, the core of `path.relative`: returns the
leftover segments of both paths. -/
def dropCommon {α : Type} [DecidableEq α] : List α → List α → List α × List α
  | a :: as, b :: bs => if a = b then dropCommon as bs else (a :: as, b :: bs)
  | as, bs => (as, bs)

/-- `path.relative(from, to)` on two absolute paths' segments: one
`".."` per leftover `from` segment, then the leftover `to` segments. -/
def pathRelSegs (f t : List (List Char)) : List (List Char) :=
  (dropCommon f t).1.map (fun _ => ['.', '.']) ++ (dropCommon f t).2

/-- Whether the `"/"`-joined rendering of a relative path's segments
starts with `".."` (see the section comment). -/
def relStartsDotDot : List (List Char) → Bool
  | [] => false
  | h :: _ => ['.', '.'].isPrefixOf h

/-- Whether the `"/"`-joined rendering starts with `"/"`; segments never
contain `'/'`, so this is `path.isAbsolute` of the rendering. -/
def relIsAbsolute : List (List Char) → Bool
  | [] => false
  | h :: _ => ['/'].isPrefixOf h

/-- `path.join(process.cwd(), "data", "tech_images")` as segments. -/
def baseSegs (cwd : List (List Char)) : List (List Char) :=
  normStack true [] (cwd ++ ["data".data, "tech_images".data])

/-- The resolved absolute path of the route:
`path.join(process.cwd(), path.normalize(raw).replace(/^(\.\.(\/|\\|$))+/, ""))`
as segments.  When `raw` is absolute its normalization starts with `"/"`
and the anchored regex cannot match. -/
def resolveSegs (cwd : List (List Char)) (raw : String) : List (List Char) :=
  let isAbs := ['/'].isPrefixOf raw.data
  let nsegs := normStack isAbs [] (splitSegs raw)
  let ssegs := if isAbs then nsegs else stripSegs nsegs
  normStack true [] (cwd ++ ssegs)

/-- `resolveImagePath`: the resolved path, or `null` when the path
relative to the base directory starts with `".."` or is absolute. -/
def resolveImagePath (cwd : List (List Char)) (raw : String) :
    Option (List (List Char)) :=
  let resolved := resolveSegs cwd raw
  let rel := pathRelSegs (baseSegs cwd) resolved
  if relStartsDotDot rel || relIsAbsolute rel then none else some resolved

/-- An HTTP response of the route, reduced to its status and (for 200)
the served bytes. -/
structure ImageResponse where
  status : Nat
  body : Option String
deriving Repr, DecidableEq

/-- The route handler `GET`.  `searchParams.get("path")` yields `none`
when absent; the guard `if (!rawPath)` also rejects the empty string
(falsy in JavaScript). -/
def GET (fsRead : List (List Char) → Option String) (cwd : List (List Char))
    (rawPath : Option String) : ImageResponse :=
  match rawPath with
  | none => ⟨400, none⟩
  | some raw =>
    if raw = "" then ⟨400, none⟩
    else
      match resolveImagePath cwd raw with
      | none => ⟨400, none⟩
      | some resolved =>
        match fsRead resolved with
        | some bytes => ⟨200, some bytes⟩
        | none => ⟨404, none⟩

/-! ## Proof infrastructure: resolver invariants -/

/-- The level equation of the resolver: level 0 for an empty sanitized
prerequisite list, otherwise one more than the maximum prerequisite
level (all prerequisites then having levels in `levels`). -/
def LevelSpec (nodes : List TechNode) (levels : List (String × Nat))
    (id : String) (l : Nat) : Prop :=
  (depsOf nodes id = [] ∧ l = 0) ∨
    (depsOf nodes id ≠ [] ∧
      (∀ d ∈ depsOf nodes id, (mget? levels d).isSome) ∧
      l = listMax ((depsOf nodes id).map (fun d => (mget? levels d).getD 0)) + 1)

/-- The loop invariant of the fixed-point pass: `remaining` is a
duplicate-free subset of the dataset ids, the domain of `levels` is
exactly the dataset ids not in `remaining`, and every assigned level
satisfies the level equation. -/
def RInv (nodes : List TechNode) (st : RState) : Prop :=
  st.rem.Nodup ∧
    (∀ x ∈ st.rem, x ∈ idsOf nodes) ∧
    (∀ k, (mget? st.levels k).isSome ↔ (k ∈ idsOf nodes ∧ k ∉ st.rem)) ∧
    (∀ k l, mget? st.levels k = some l → LevelSpec nodes st.levels k l)

/-- The fallback level the pass computes for `id` when the ids in `pre`
have been processed before it: `1 + max` of the levels its sanitized
prerequisites have *at that moment* (loop levels plus the fallback
levels of `pre`), or 0 if none have one. -/
def fallbackLevelAt (nodes : List TechNode) (pre : List String) (id : String) : Nat :=
  let lv := fallbackFold (depsOf nodes) (afterLoop nodes).levels pre
  let resolved := (depsOf nodes id).filterMap (fun d => mget? lv d)
  if 0 < resolved.length then listMax resolved + 1 else 0

/-! ## Concrete example inputs -/

/-- A two-node pure cycle `A → B → A` (after sanitization). -/
def exCycle : List TechNode :=
  [{ id := "A", title := "A", required_technologies := some ["B"] },
   { id := "B", title := "B", required_technologies := some ["A"] }]

/-- The acyclic three-node chain of the spec's scenario:
`A` (no prerequisites), `B` (needs `A`), `C` (needs `A` and `B`). -/
def exChain : List TechNode :=
  [{ id := "A", title := "A", required_technologies := some [] },
   { id := "B", title := "B", required_technologies := some ["A"] },
   { id := "C", title := "C", required_technologies := some ["A", "B"] }]

/-- A dataset whose node `B` lists `A` twice among its prerequisites. -/
def exDupDeps : List TechNode :=
  [{ id := "A", title := "A" },
   { id := "B", title := "B", required_technologies := some ["A", "A"] }]

/-- Two level-0 graph nodes with the same title whose ids are in
anti-alphabetical dataset order. -/
def exTitleTie : List GraphNode :=
  [{ id := "B", title := "T" }, { id := "A", title := "T" }]

/-- Two graph nodes on consecutive levels, and the edge between them. -/
def exTwoLevels : List GraphNode :=
  [{ id := "A", title := "a" },
   { id := "B", title := "b", level := 1, prerequisites := ["A"] }]

/-- The single edge of `exTwoLevels`. -/
def exTwoLevelsEdges : List GraphEdge :=
  [⟨"A::B", "A", "B"⟩]

/-- An edge list containing the same derived edge twice (as the builder
produces from `exDupDeps`, whose raw data repeats a prerequisite). -/
def exDupEdges : List GraphEdge :=
  [⟨"A::B", "A", "B"⟩, ⟨"A::B", "A", "B"⟩]

/-- The contract of `update_zoom` for a zoom request: the new scale is
the clamped requested scale; the new offset follows the
anchor-preserving formula `anchor - (anchor - offset) * ratio` in both
coordinates; and the content-space point under the anchor is unchanged.
The anchor coordinates default to the viewport center. -/
def ZoomSpec (rect_w rect_h : ℚ) (current : Transform) (next_scale : ℚ)
    (anchor_x? anchor_y? : Option ℚ) : Prop :=
  (update_zoom rect_w rect_h current next_scale anchor_x? anchor_y?).scale =
      clamp next_scale min_zoom max_zoom ∧
    (update_zoom rect_w rect_h current next_scale anchor_x? anchor_y?).x =
      anchor_x?.getD (rect_w / 2) -
        (anchor_x?.getD (rect_w / 2) - current.x) *
          (clamp next_scale min_zoom max_zoom / current.scale) ∧
    (update_zoom rect_w rect_h current next_scale anchor_x? anchor_y?).y =
      anchor_y?.getD (rect_h / 2) -
        (anchor_y?.getD (rect_h / 2) - current.y) *
          (clamp next_scale min_zoom max_zoom / current.scale) ∧
    (anchor_x?.getD (rect_w / 2) -
          (update_zoom rect_w rect_h current next_scale anchor_x? anchor_y?).x) /
        (update_zoom rect_w rect_h current next_scale anchor_x? anchor_y?).scale =
      (anchor_x?.getD (rect_w / 2) - current.x) / current.scale ∧
    (anchor_y?.getD (rect_h / 2) -
          (update_zoom rect_w rect_h current next_scale anchor_x? anchor_y?).y) /
        (update_zoom rect_w rect_h current next_scale anchor_x? anchor_y?).scale =
      (anchor_y?.getD (rect_h / 2) - current.y) / current.scale

/-- What the path of a drawn edge looks like: it starts at the
horizontal midpoint of the source node's bottom edge, ends at the
horizontal midpoint of the target node's top edge, and both control
points sit at the same intermediate height, 55% of the way from the
start to the end — i.e. the first control point is offset 55% of the
vertical distance from the start anchor, the second 45% (not 55%) from
the end anchor. -/
def DrawnPathSpec (layout : Layout) (e : GraphEdge) (p : EdgePath) : Prop :=
  ∃ fp tp fs ts, mapGet? layout.positions e.from_ = some fp ∧
    mapGet? layout.positions e.to_ = some tp ∧
    mapGet? layout.sizes e.from_ = some fs ∧
    mapGet? layout.sizes e.to_ = some ts ∧
    p.p0 = (fp.1 + (fs.1 : ℚ) / 2, fp.2 + (fs.2 : ℚ)) ∧
    p.p3 = (tp.1 + (ts.1 : ℚ) / 2, tp.2) ∧
    p.p1 = (p.p0.1, p.p0.2 + (p.p3.2 - p.p0.2) * (0.55 : ℚ)) ∧
    p.p2 = (p.p3.1, p.p0.2 + (p.p3.2 - p.p0.2) * (0.55 : ℚ))

/-! ## Lemmas about the map and list helpers -/

theorem mget?_cons {α : Type} (a : String) (v : α) (l : List (String × α)) (k : String) :
    mget? ((a, v) :: l) k = if a = k then some v else mget? l k := by
  by_cases h : a = k
  · simp [mget?, List.find?, h]
  · have hb : (a == k) = false := by simp [h]
    simp [mget?, List.find?, h, hb]

theorem mget?_nil {α : Type} (k : String) : mget? ([] : List (String × α)) k = none := rfl

theorem mget?_isSome_iff {α : Type} (l : List (String × α)) (k : String) :
    (mget? l k).isSome ↔ k ∈ l.map Prod.fst := by
  induction l with
  | nil => simp [mget?]
  | cons p l ih =>
    obtain ⟨a, v⟩ := p
    rw [mget?_cons]
    by_cases h : a = k
    · subst h
      simp
    · have hne : k ≠ a := fun hk => h hk.symm
      simp [h, ih, hne]

theorem mget?_eq_some_mem {α : Type} {l : List (String × α)} {k : String} {v : α}
    (h : mget? l k = some v) : (k, v) ∈ l := by
  induction l with
  | nil => simp [mget?] at h
  | cons p l ih =>
    obtain ⟨a, w⟩ := p
    rw [mget?_cons] at h
    by_cases ha : a = k
    · simp [ha] at h
      simp [ha, h]
    · simp [ha] at h
      exact List.mem_cons_of_mem _ (ih h)

theorem mapGet?_eq_some_mem {α : Type} {l : List (String × α)} {k : String} {v : α}
    (h : mapGet? l k = some v) : (k, v) ∈ l := by
  have := mget?_eq_some_mem h
  exact (List.mem_reverse).mp this

theorem mapGet?_isSome_iff {α : Type} (l : List (String × α)) (k : String) :
    (mapGet? l k).isSome ↔ k ∈ l.map Prod.fst := by
  simp [mapGet?, mget?_isSome_iff, List.map_reverse, List.mem_reverse]

theorem mem_dedupFirst {α : Type} [DecidableEq α] (l : List α) (x : α) :
    x ∈ dedupFirst l ↔ x ∈ l := by
  induction l with
  | nil => simp [dedupFirst]
  | cons a l ih =>
    by_cases h : x = a <;> simp [dedupFirst, List.mem_filter, h, ih]

theorem nodup_dedupFirst {α : Type} [DecidableEq α] (l : List α) :
    (dedupFirst l).Nodup := by
  induction l with
  | nil => simp [dedupFirst]
  | cons a l ih =>
    refine List.nodup_cons.mpr ⟨?_, ih.filter _⟩
    intro hmem
    have := (List.mem_filter.mp hmem).2
    simp at this
/-! ## Lemmas about the sanitized prerequisite lists -/

theorem idsOf_nodesById (nodes : List TechNode) :
    (nodesById nodes).map Prod.fst = idsOf nodes := by
  simp [nodesById, idsOf, List.map_map, Function.comp]

/-- Every sanitized prerequisite is a known id different from the node's
own id (the two `filter`s of the `dependencies` construction). -/
theorem depsOf_mem {nodes : List TechNode} {a d : String} (h : d ∈ depsOf nodes a) :
    d ≠ a ∧ d ∈ idsOf nodes := by
  unfold depsOf at h
  cases hm : mapGet? (dependencies nodes) a with
  | none => rw [hm] at h; simp at h
  | some v =>
    rw [hm] at h
    simp only [Option.getD_some] at h
    have hmem := mapGet?_eq_some_mem hm
    unfold dependencies at hmem
    rw [List.mem_map] at hmem
    obtain ⟨n, _hn, heq⟩ := hmem
    have hida : n.id = a := congrArg Prod.fst heq
    have hval : (((mapGet? (raw_dependencies nodes) n.id).getD []).filter
          (fun dep => dep ≠ n.id)).filter
        (fun dep => (mapGet? (nodesById nodes) dep).isSome) = v := congrArg Prod.snd heq
    rw [← hval] at h
    have h2 := List.mem_filter.mp h
    have h1 := List.mem_filter.mp h2.1
    constructor
    · rw [← hida]
      simpa using h1.2
    · have hs : (mapGet? (nodesById nodes) d).isSome := by simpa using h2.2
      rw [mapGet?_isSome_iff, idsOf_nodesById] at hs
      exact hs


/-! ## The fixed-point loop: invariant preservation -/

/-- Assigning a level to an id still in `remaining` (hence outside the
domain of `levels`) and erasing it from `remaining` preserves the loop
invariant, provided the new entry itself satisfies the level equation
against the extended map. -/
theorem RInv_insert {nodes : List TechNode} {st : RState} {id : String} {v : Nat}
    {roots' : List String} (hInv : RInv nodes st) (hid : id ∈ st.rem)
    (hnew : LevelSpec nodes ((id, v) :: st.levels) id v) :
    RInv nodes ⟨(id, v) :: st.levels, roots', st.rem.erase id⟩ := by
  obtain ⟨hnodup, hsub, hdom, hspec⟩ := hInv
  have hid_not : ¬ (mget? st.levels id).isSome := fun hs => ((hdom id).mp hs).2 hid
  refine ⟨hnodup.erase id, ?_, ?_, ?_⟩
  · exact fun x hx => hsub x (List.mem_of_mem_erase hx)
  · intro k
    rw [mget?_cons]
    by_cases hk : id = k
    · subst hk
      rw [if_pos rfl]
      simp only [Option.isSome_some, true_iff]
      refine ⟨hsub id hid, ?_⟩
      rw [hnodup.mem_erase_iff]
      simp
    · rw [if_neg hk, hdom k, hnodup.mem_erase_iff]
      have hkk : k ≠ id := fun h => hk h.symm
      simp [hkk]
  · intro k l hkl
    rw [mget?_cons] at hkl
    by_cases hk : id = k
    · subst hk
      rw [if_pos rfl] at hkl
      have hvl : v = l := Option.some.inj hkl
      subst hvl
      exact hnew
    · rw [if_neg hk] at hkl
      rcases hspec k l hkl with hl | ⟨hne, hall, hval⟩
      · exact Or.inl hl
      · refine Or.inr ⟨hne, ?_, ?_⟩
        · intro d hd
          rw [mget?_cons]
          by_cases hdd : id = d
          · rw [if_pos hdd]
            simp
          · rw [if_neg hdd]
            exact hall d hd
        · have hpt : ∀ d ∈ depsOf nodes k,
              (mget? ((id, v) :: st.levels) d).getD 0 = (mget? st.levels d).getD 0 := by
            intro d hd
            rw [mget?_cons]
            have hdd : id ≠ d := by
              intro h
              rw [h] at hid_not
              exact hid_not (hall d hd)
            rw [if_neg hdd]
          rw [hval]
          exact congrArg (fun t => listMax t + 1) (List.map_congr_left hpt).symm

/-- Processing an id that is still in `remaining` either leaves the
state untouched (its prerequisites are not all resolved yet) or removes
exactly that id from `remaining` while preserving the loop invariant. -/
theorem procId_step {nodes : List TechNode} {st : RState} {id : String}
    (hInv : RInv nodes st) (hid : id ∈ st.rem) :
    procId (depsOf nodes) st id = st ∨
      (RInv nodes (procId (depsOf nodes) st id) ∧
        (procId (depsOf nodes) st id).rem = st.rem.erase id) := by
  have hid_not : ¬ (mget? st.levels id).isSome :=
    fun hs => ((hInv.2.2.1 id).mp hs).2 hid
  by_cases hempty : (depsOf nodes id).isEmpty
  · right
    have hd0 : depsOf nodes id = [] := List.isEmpty_iff.mp hempty
    have hres : procId (depsOf nodes) st id =
        ⟨(id, 0) :: st.levels, st.roots ++ [id], st.rem.erase id⟩ := by
      unfold procId
      rw [if_pos hempty]
    rw [hres]
    exact ⟨RInv_insert hInv hid (Or.inl ⟨hd0, rfl⟩), rfl⟩
  · by_cases hall : ((depsOf nodes id).filter
        (fun d => (mget? st.levels d).isSome)).length = (depsOf nodes id).length
    · right
      have hfe : (depsOf nodes id).filter (fun d => (mget? st.levels d).isSome) =
          depsOf nodes id :=
        (List.filter_sublist (depsOf nodes id)).eq_of_length hall
      have hallSome : ∀ d ∈ depsOf nodes id, (mget? st.levels d).isSome := by
        intro d hd
        have := List.filter_eq_self.mp hfe d hd
        simpa using this
      have hres : procId (depsOf nodes) st id =
          ⟨(id, listMax (((depsOf nodes id).filter
              (fun d => (mget? st.levels d).isSome)).map
                (fun d => (mget? st.levels d).getD 0)) + 1) :: st.levels,
            st.roots, st.rem.erase id⟩ := by
        unfold procId
        rw [if_neg hempty, if_pos hall]
      rw [hres]
      refine ⟨RInv_insert hInv hid (Or.inr ⟨?_, ?_, ?_⟩), rfl⟩
      · intro hnil
        rw [hnil] at hempty
        simp at hempty
      · intro d hd
        rw [mget?_cons]
        by_cases hdd : id = d
        · rw [if_pos hdd]
          simp
        · rw [if_neg hdd]
          exact hallSome d hd
      · have hpt : ∀ d ∈ depsOf nodes id,
            (mget? ((id, listMax ((depsOf nodes id).map
                (fun d => (mget? st.levels d).getD 0)) + 1) :: st.levels) d).getD 0 =
              (mget? st.levels d).getD 0 := by
          intro d hd
          rw [mget?_cons]
          have hdd : id ≠ d := by
            intro h
            rw [h] at hid_not
            exact hid_not (hallSome d hd)
          rw [if_neg hdd]
        rw [hfe]
        exact congrArg (fun t => listMax t + 1) (List.map_congr_left hpt).symm
    · left
      unfold procId
      rw [if_neg hempty, if_neg hall]

/-- Folding `procId` over a duplicate-free snapshot of ids that are all
still in `remaining` preserves the invariant, never grows `remaining`,
and — when it makes no progress at all — leaves the state literally
unchanged, every processed id having been a no-op. -/
theorem foldl_procId_inv {nodes : List TechNode} :
    ∀ (L : List String) (st : RState), RInv nodes st → L.Nodup →
      (∀ x ∈ L, x ∈ st.rem) →
      RInv nodes (L.foldl (procId (depsOf nodes)) st) ∧
        (L.foldl (procId (depsOf nodes)) st).rem.length ≤ st.rem.length ∧
        ((L.foldl (procId (depsOf nodes)) st).rem.length = st.rem.length →
          L.foldl (procId (depsOf nodes)) st = st ∧
            ∀ x ∈ L, procId (depsOf nodes) st x = st) := by
  intro L
  induction L with
  | nil =>
    intro st hInv _ _
    exact ⟨hInv, le_refl _, fun _ => ⟨rfl, by simp⟩⟩
  | cons x L ih =>
    intro st hInv hnodup hmem
    have hx : x ∈ st.rem := hmem x (List.mem_cons_self x L)
    rw [List.foldl_cons]
    rcases procId_step hInv hx with hfix | ⟨hInv1, hrem1⟩
    · rw [hfix]
      obtain ⟨hInv', hle, hstall⟩ :=
        ih st hInv (List.nodup_cons.mp hnodup).2
          (fun y hy => hmem y (List.mem_cons_of_mem x hy))
      refine ⟨hInv', hle, fun heq => ?_⟩
      obtain ⟨hfe, hallfix⟩ := hstall heq
      refine ⟨hfe, fun y hy => ?_⟩
      rcases List.mem_cons.mp hy with rfl | hyL
      · exact hfix
      · exact hallfix y hyL
    · have hmem1 : ∀ y ∈ L, y ∈ (procId (depsOf nodes) st x).rem := by
        intro y hy
        rw [hrem1, hInv.1.mem_erase_iff]
        exact ⟨fun hxy => (List.nodup_cons.mp hnodup).1 (hxy ▸ hy), hmem y
          (List.mem_cons_of_mem x hy)⟩
      obtain ⟨hInv', hle, _⟩ :=
        ih (procId (depsOf nodes) st x) hInv1 (List.nodup_cons.mp hnodup).2 hmem1
      have hlen1 : (procId (depsOf nodes) st x).rem.length = st.rem.length - 1 := by
        rw [hrem1]
        exact List.length_erase_of_mem hx
      have hpos : 0 < st.rem.length := List.length_pos.mpr (fun hnil => by
        rw [hnil] at hx
        simp at hx)
      refine ⟨hInv', by omega, fun heq => absurd heq (by omega)⟩

/-- A full pass preserves the invariant; a pass that does not shrink
`remaining` changes nothing, and every remaining id is then a no-op of
the pass body. -/
theorem runPass_inv {nodes : List TechNode} {st : RState} (h : RInv nodes st) :
    RInv nodes (runPass (depsOf nodes) st) ∧
      (runPass (depsOf nodes) st).rem.length ≤ st.rem.length ∧
      ((runPass (depsOf nodes) st).rem.length = st.rem.length →
        runPass (depsOf nodes) st = st ∧
          ∀ x ∈ st.rem, procId (depsOf nodes) st x = st) :=
  foldl_procId_inv st.rem st h h.1 (fun _ hx => hx)

/-- The fixed-point loop preserves the invariant, never runs out of
fuel (given fuel at least the size of `remaining`), and its result is a
genuine fixed point: either `remaining` is empty or every remaining id
is a no-op of the pass body. -/
theorem loopGo_inv {nodes : List TechNode} :
    ∀ (fuel : Nat) (st : RState), st.rem.length ≤ fuel → RInv nodes st →
      RInv nodes (loopGo (depsOf nodes) fuel st) ∧
        ((loopGo (depsOf nodes) fuel st).rem = [] ∨
          ∀ x ∈ (loopGo (depsOf nodes) fuel st).rem,
            procId (depsOf nodes) (loopGo (depsOf nodes) fuel st) x =
              loopGo (depsOf nodes) fuel st) := by
  intro fuel
  induction fuel with
  | zero =>
    intro st hle hInv
    exact ⟨hInv, Or.inl (List.length_eq_zero.mp (Nat.le_zero.mp hle))⟩
  | succ fuel ih =>
    intro st hle hInv
    simp only [loopGo]
    by_cases h0 : st.rem.length = 0
    · rw [if_pos h0]
      exact ⟨hInv, Or.inl (List.length_eq_zero.mp h0)⟩
    · rw [if_neg h0]
      obtain ⟨hInv', hle', hstall⟩ := runPass_inv hInv
      by_cases hlt : (runPass (depsOf nodes) st).rem.length < st.rem.length
      · rw [if_pos hlt]
        exact ih _ (by omega) hInv'
      · rw [if_neg hlt]
        have heq : (runPass (depsOf nodes) st).rem.length = st.rem.length :=
          le_antisymm hle' (not_lt.mp hlt)
        obtain ⟨hfe, hall⟩ := hstall heq
        rw [hfe]
        exact ⟨hInv, Or.inr hall⟩

/-- The initial resolver state satisfies the loop invariant. -/
theorem initState_inv (nodes : List TechNode) : RInv nodes (initState nodes) := by
  refine ⟨nodup_dedupFirst _, ?_, ?_, ?_⟩
  · intro x hx
    exact (mem_dedupFirst _ _).mp hx
  · intro k
    simp only [initState, mget?_nil, Option.isSome_none, Bool.false_eq_true, false_iff]
    intro hc
    exact hc.2 ((mem_dedupFirst _ _).mpr hc.1)
  · intro k l hkl
    simp [initState, mget?_nil] at hkl

/-- The state after the fixed-point loop satisfies the invariant and is
a fixed point of the pass body on every remaining id. -/
theorem afterLoop_inv (nodes : List TechNode) :
    RInv nodes (afterLoop nodes) ∧
      ((afterLoop nodes).rem = [] ∨
        ∀ x ∈ (afterLoop nodes).rem,
          procId (depsOf nodes) (afterLoop nodes) x = afterLoop nodes) :=
  loopGo_inv _ (initState nodes) (le_refl _) (initState_inv nodes)

/-- An id of `remaining` on which the pass body is a no-op has a
non-empty sanitized prerequisite list containing an unleveled
prerequisite (both other branches would have erased the id). -/
theorem procId_fix_cases {nodes : List TechNode} {st : RState} {id : String}
    (hid : id ∈ st.rem) (hfix : procId (depsOf nodes) st id = st) :
    depsOf nodes id ≠ [] ∧ ∃ d ∈ depsOf nodes id, mget? st.levels d = none := by
  have herase : st.rem.erase id ≠ st.rem := by
    intro he
    have h1 : (st.rem.erase id).length = st.rem.length - 1 :=
      List.length_erase_of_mem hid
    have h2 : 0 < st.rem.length := List.length_pos.mpr (fun hnil => by
      rw [hnil] at hid
      simp at hid)
    rw [he] at h1
    omega
  by_cases hempty : (depsOf nodes id).isEmpty
  · exfalso
    apply herase
    have : procId (depsOf nodes) st id =
        ⟨(id, 0) :: st.levels, st.roots ++ [id], st.rem.erase id⟩ := by
      unfold procId
      rw [if_pos hempty]
    rw [this] at hfix
    exact congrArg RState.rem hfix
  · by_cases hall : ((depsOf nodes id).filter
        (fun d => (mget? st.levels d).isSome)).length = (depsOf nodes id).length
    · exfalso
      apply herase
      have : procId (depsOf nodes) st id =
          ⟨(id, listMax (((depsOf nodes id).filter
              (fun d => (mget? st.levels d).isSome)).map
                (fun d => (mget? st.levels d).getD 0)) + 1) :: st.levels,
            st.roots, st.rem.erase id⟩ := by
        unfold procId
        rw [if_neg hempty, if_pos hall]
      rw [this] at hfix
      exact congrArg RState.rem hfix
    · refine ⟨fun hnil => by (rw [hnil] at hempty; simp at hempty), ?_⟩
      by_contra hnone
      push_neg at hnone
      apply hall
      apply congrArg List.length
      apply List.filter_eq_self.mpr
      intro d hd
      have := hnone d hd
      cases ho : mget? st.levels d with
      | none => exact absurd ho this
      | some _ => simp

/-- A non-empty duplicate-free id set in which every id has a sanitized
prerequisite inside the set yields a cycle of the sanitized prerequisite
graph (by pigeonhole on iterating a choice of such a prerequisite). -/
theorem exists_cycle_of_stall {nodes : List TechNode} {R : List String}
    (hne : R ≠ []) (hnodup : R.Nodup)
    (hstep : ∀ x ∈ R, ∃ d ∈ depsOf nodes x, d ∈ R) :
    ∃ a, Relation.TransGen (depStep nodes) a a := by
  classical
  set f : String → String :=
    fun x => ((depsOf nodes x).find? (fun d => decide (d ∈ R))).getD x with hf
  have hfprop : ∀ x ∈ R, f x ∈ depsOf nodes x ∧ f x ∈ R := by
    intro x hx
    obtain ⟨d, hd, hdR⟩ := hstep x hx
    have hsome : ((depsOf nodes x).find? (fun d => decide (d ∈ R))).isSome := by
      rw [List.find?_isSome]
      exact ⟨d, hd, by simpa using hdR⟩
    obtain ⟨d0, hd0⟩ := Option.isSome_iff_exists.mp hsome
    have h1 : d0 ∈ depsOf nodes x := List.mem_of_find?_eq_some hd0
    have h2 : d0 ∈ R := by
      have := List.find?_some hd0
      simpa using this
    rw [hf]
    simp only [hd0, Option.getD_some]
    exact ⟨h1, h2⟩
  have hiter : ∀ y ∈ R, ∀ k, f^[k] y ∈ R := by
    intro y hy k
    induction k with
    | zero => exact hy
    | succ k ihk =>
      rw [Function.iterate_succ_apply']
      exact (hfprop _ ihk).2
  obtain ⟨x0, hx0⟩ := List.exists_mem_of_ne_nil R hne
  have hcard : R.toFinset.card < (Finset.range (R.length + 1)).card := by
    rw [List.toFinset_card_of_nodup hnodup, Finset.card_range]
    omega
  obtain ⟨i, _, j, _, hij, heq⟩ :=
    Finset.exists_ne_map_eq_of_card_lt_of_maps_to hcard
      (fun i _ => List.mem_toFinset.mpr (hiter x0 hx0 i))
  have hchain : ∀ (k : Nat) (y : String), y ∈ R →
      Relation.TransGen (depStep nodes) y (f^[k + 1] y) := by
    intro k
    induction k with
    | zero =>
      intro y hy
      rw [Function.iterate_one]
      exact Relation.TransGen.single (hfprop y hy).1
    | succ k ihk =>
      intro y hy
      rw [Function.iterate_succ_apply']
      exact Relation.TransGen.tail (ihk y hy) (hfprop _ (hiter y hy (k + 1))).1
  rcases Nat.lt_or_ge i j with hlt | hge
  · have hji : j = (j - i - 1 + 1) + i := by omega
    have key : f^[j - i - 1 + 1] (f^[i] x0) = f^[i] x0 := by
      rw [← Function.iterate_add_apply, ← hji]
      exact heq.symm
    refine ⟨f^[i] x0, ?_⟩
    have h1 := hchain (j - i - 1) (f^[i] x0) (hiter x0 hx0 i)
    rw [key] at h1
    exact h1
  · have hlt' : j < i := by omega
    have hij' : i = (i - j - 1 + 1) + j := by omega
    have key : f^[i - j - 1 + 1] (f^[j] x0) = f^[j] x0 := by
      rw [← Function.iterate_add_apply, ← hij']
      exact heq
    refine ⟨f^[j] x0, ?_⟩
    have h1 := hchain (i - j - 1) (f^[j] x0) (hiter x0 hx0 j)
    rw [key] at h1
    exact h1

/-- On an acyclic sanitized prerequisite graph the fixed-point loop
leaves nothing unresolved. -/
theorem afterLoop_rem_nil_of_acyclic {nodes : List TechNode}
    (hacyc : AcyclicDeps nodes) : (afterLoop nodes).rem = [] := by
  obtain ⟨hInv, hpost⟩ := afterLoop_inv nodes
  rcases hpost with hnil | hfixall
  · exact hnil
  · by_contra hne
    apply hacyc
    apply exists_cycle_of_stall hne hInv.1
    intro x hx
    obtain ⟨_, d, hd, hdnone⟩ := procId_fix_cases hx (hfixall x hx)
    refine ⟨d, hd, ?_⟩
    have hdA : d ∈ idsOf nodes := (depsOf_mem hd).2
    by_contra hdR
    have : (mget? (afterLoop nodes).levels d).isSome :=
      (hInv.2.2.1 d).mpr ⟨hdA, hdR⟩
    rw [hdnone] at this
    simp at this

/-! ## The fallback pass -/

theorem fallbackFold_isSome_mono {deps : String → List String} {k : String} :
    ∀ (rem : List String) (lv : List (String × Nat)), (mget? lv k).isSome →
      (mget? (fallbackFold deps lv rem) k).isSome := by
  intro rem
  induction rem with
  | nil => exact fun lv h => h
  | cons id rem ih =>
    intro lv h
    have hstep : fallbackFold deps lv (id :: rem) =
        fallbackFold deps ((id,
          if 0 < ((deps id).filterMap (fun d => mget? lv d)).length then
            listMax ((deps id).filterMap (fun d => mget? lv d)) + 1
          else 0) :: lv) rem := rfl
    rw [hstep]
    apply ih
    rw [mget?_cons]
    by_cases hk : id = k
    · rw [if_pos hk]
      simp
    · rw [if_neg hk]
      exact h

theorem fallbackFold_isSome_of_mem {deps : String → List String} {k : String} :
    ∀ (rem : List String) (lv : List (String × Nat)), k ∈ rem →
      (mget? (fallbackFold deps lv rem) k).isSome := by
  intro rem
  induction rem with
  | nil => intro lv h; simp at h
  | cons id rem ih =>
    intro lv h
    have hstep : fallbackFold deps lv (id :: rem) =
        fallbackFold deps ((id,
          if 0 < ((deps id).filterMap (fun d => mget? lv d)).length then
            listMax ((deps id).filterMap (fun d => mget? lv d)) + 1
          else 0) :: lv) rem := rfl
    rw [hstep]
    rcases List.mem_cons.mp h with rfl | hmem
    · apply fallbackFold_isSome_mono
      rw [mget?_cons, if_pos rfl]
      simp
    · exact ih _ hmem

/-- Processing ids other than `k` does not change `k`'s level. -/
theorem fallbackFold_skip {deps : String → List String} {k : String} :
    ∀ (rem : List String) (lv : List (String × Nat)), k ∉ rem →
      mget? (fallbackFold deps lv rem) k = mget? lv k := by
  intro rem
  induction rem with
  | nil => exact fun lv _ => rfl
  | cons id rem ih =>
    intro lv h
    have hstep : fallbackFold deps lv (id :: rem) =
        fallbackFold deps ((id,
          if 0 < ((deps id).filterMap (fun d => mget? lv d)).length then
            listMax ((deps id).filterMap (fun d => mget? lv d)) + 1
          else 0) :: lv) rem := rfl
    rw [hstep, ih _ (fun hm => h (List.mem_cons_of_mem id hm)), mget?_cons,
      if_neg (fun hk => h (by rw [← hk]; exact List.mem_cons_self id rem))]

/-- The level the fallback pass leaves on an unresolved id: exactly the
value computed at its position, from the levels visible at that moment
(the loop's levels plus the fallback levels of the ids processed
before it). -/
theorem fallbackFold_split (nodes : List TechNode) (pre post : List String)
    (id : String) (hpost : id ∉ post) :
    mget? (fallbackFold (depsOf nodes) (afterLoop nodes).levels (pre ++ id :: post)) id =
      some (fallbackLevelAt nodes pre id) := by
  have happ : fallbackFold (depsOf nodes) (afterLoop nodes).levels (pre ++ id :: post) =
      fallbackFold (depsOf nodes)
        (fallbackFold (depsOf nodes) (afterLoop nodes).levels pre) (id :: post) := by
    unfold fallbackFold
    rw [List.foldl_append]
  have hstep : fallbackFold (depsOf nodes)
      (fallbackFold (depsOf nodes) (afterLoop nodes).levels pre) (id :: post) =
      fallbackFold (depsOf nodes)
        ((id, fallbackLevelAt nodes pre id) ::
          fallbackFold (depsOf nodes) (afterLoop nodes).levels pre) post := rfl
  rw [happ, hstep, fallbackFold_skip post _ hpost, mget?_cons, if_pos rfl]

/-! ## Claim theorems: the resolver (C1, C2, C3) -/

/-- A node with a non-empty sanitized prerequisite list is a dataset
node (ids outside the dataset have no `dependencies` entry). -/
theorem depsOf_ne_nil_mem {nodes : List TechNode} {a : String}
    (h : depsOf nodes a ≠ []) : a ∈ idsOf nodes := by
  unfold depsOf at h
  cases hm : mapGet? (dependencies nodes) a with
  | none => rw [hm] at h; simp at h
  | some v =>
    have hmem := mapGet?_eq_some_mem hm
    have : a ∈ (dependencies nodes).map Prod.fst :=
      List.mem_map.mpr ⟨(a, v), hmem, rfl⟩
    simpa [dependencies, idsOf, List.map_map, Function.comp] using this

/-- A ranking that strictly decreases along sanitized prerequisite edges
certifies acyclicity. -/
theorem acyclic_of_rank {nodes : List TechNode} (r : String → Nat)
    (hr : ∀ a b, b ∈ depsOf nodes a → r b < r a) : AcyclicDeps nodes := by
  rintro ⟨a, hcyc⟩
  have hmono : ∀ x y, Relation.TransGen (depStep nodes) x y → r y < r x := by
    intro x y h
    induction h with
    | single hstep => exact hr _ _ hstep
    | tail _ hstep ih => exact lt_trans (hr _ _ hstep) ih
  exact lt_irrefl _ (hmono a a hcyc)

/-- C1: for every input node set whose sanitized prerequisite graph is
acyclic, the resolver assigns every node a level satisfying the level
equation: 0 when the sanitized prerequisite list is empty, otherwise
1 plus the maximum level among the sanitized prerequisites (which all
have levels). -/
theorem C1_acyclic_level_equation (nodes : List TechNode)
    (hacyc : AcyclicDeps nodes) :
    ∀ id ∈ idsOf nodes, ∃ l, mget? (finalLevels nodes) id = some l ∧
      LevelSpec nodes (finalLevels nodes) id l := by
  intro id hid
  have hrem := afterLoop_rem_nil_of_acyclic hacyc
  have hInv := (afterLoop_inv nodes).1
  have hfl : finalLevels nodes = (afterLoop nodes).levels := by
    unfold finalLevels
    rw [hrem]
    rfl
  have hsome : (mget? (afterLoop nodes).levels id).isSome :=
    (hInv.2.2.1 id).mpr ⟨hid, by rw [hrem]; simp⟩
  obtain ⟨l, hl⟩ := Option.isSome_iff_exists.mp hsome
  refine ⟨l, by rw [hfl]; exact hl, ?_⟩
  rw [hfl]
  exact hInv.2.2.2 id l hl

/-- Witness for C1 at the spec's acyclic scenario `A`, `B(A)`,
`C(A, B)`: the acyclicity hypothesis is discharged by an explicit rank
function, and the level equation holds for every node. -/
theorem C1_acyclic_level_equation_witness :
    AcyclicDeps exChain ∧
      (∀ id ∈ idsOf exChain, ∃ l, mget? (finalLevels exChain) id = some l ∧
        LevelSpec exChain (finalLevels exChain) id l) := by
  have hacyc : AcyclicDeps exChain := by
    apply acyclic_of_rank (fun s => if s = "A" then 0 else if s = "B" then 1 else 2)
    intro a b hb
    have ha : a ∈ idsOf exChain := depsOf_ne_nil_mem (fun hnil => by
      rw [hnil] at hb
      simp at hb)
    have ha3 : a = "A" ∨ a = "B" ∨ a = "C" := by
      simpa [idsOf, exChain] using ha
    rcases ha3 with rfl | rfl | rfl
    · have : depsOf exChain "A" = [] := by decide
      rw [this] at hb
      simp at hb
    · have : depsOf exChain "B" = ["A"] := by decide
      rw [this] at hb
      simp at hb
      subst hb
      decide
    · have : depsOf exChain "C" = ["A", "B"] := by decide
      rw [this] at hb
      simp at hb
      rcases hb with rfl | rfl <;> decide
  exact ⟨hacyc, C1_acyclic_level_equation exChain hacyc⟩

/-- C2: for every finite input node set — cyclic or not — the resolver
terminates (it is a total function of the input) and, after the
fallback pass, every input node id has an assigned (natural-number)
level; no input makes it fail. -/
theorem C2_resolver_total (nodes : List TechNode) :
    ∀ id ∈ idsOf nodes, (mget? (finalLevels nodes) id).isSome := by
  intro id hid
  have hInv := (afterLoop_inv nodes).1
  by_cases hrem : id ∈ (afterLoop nodes).rem
  · exact fallbackFold_isSome_of_mem _ _ hrem
  · exact fallbackFold_isSome_mono _ _ ((hInv.2.2.1 id).mpr ⟨hid, hrem⟩)

/-- Witness for C2 at the pure two-cycle `A → B → A`: both ids receive
levels. -/
theorem C2_resolver_total_witness :
    ("A" ∈ idsOf exCycle ∧ (mget? (finalLevels exCycle) "A").isSome) ∧
      ("B" ∈ idsOf exCycle ∧ (mget? (finalLevels exCycle) "B").isSome) :=
  ⟨⟨by decide, C2_resolver_total exCycle "A" (by decide)⟩,
    ⟨by decide, C2_resolver_total exCycle "B" (by decide)⟩⟩

/-- Counterexample to C3 as stated.  In the cycle `A → B → A` both
nodes survive the fixed-point loop (no prerequisite of either was
resolved *during the loop*), so the claimed fallback rule — `1 + max`
over the prerequisites resolved during the loop, else 0 — yields 0 for
`B`; but the code reads the *live* levels map, sees the fallback level
just given to `A`, and assigns `B` level 1. -/
theorem C3_counterexample :
    "B" ∈ (afterLoop exCycle).rem ∧
      (if 0 < ((depsOf exCycle "B").filterMap
            (fun d => mget? (afterLoop exCycle).levels d)).length then
          listMax ((depsOf exCycle "B").filterMap
            (fun d => mget? (afterLoop exCycle).levels d)) + 1
        else 0) = 0 ∧
      mget? (finalLevels exCycle) "B" = some 1 := by
  decide

/-- C3 (amended): a node left unresolved by the fixed-point loop gets
fallback level `1 + max` of the levels of those sanitized prerequisites
that have a level *when the node is processed in the fallback pass* —
the loop's levels plus the fallback levels already given to cycle
members earlier in the pass — or 0 if none has one. -/
theorem C3_fallback_level (nodes : List TechNode) (pre post : List String)
    (id : String) (hsplit : (afterLoop nodes).rem = pre ++ id :: post)
    (hpost : id ∉ post) :
    mget? (finalLevels nodes) id = some (fallbackLevelAt nodes pre id) := by
  unfold finalLevels
  rw [hsplit]
  exact fallbackFold_split nodes pre post id hpost

/-- Witness for C3 (amended) at the two-cycle: `B` is processed after
`A`, sees `A`'s fallback level 0, and receives level 1. -/
theorem C3_fallback_level_witness :
    (afterLoop exCycle).rem = ["A"] ++ "B" :: [] ∧ "B" ∉ ([] : List String) ∧
      mget? (finalLevels exCycle) "B" = some (fallbackLevelAt exCycle ["A"] "B") ∧
      fallbackLevelAt exCycle ["A"] "B" = 1 :=
  ⟨by decide, by decide,
    C3_fallback_level exCycle ["A"] [] "B" (by decide) (by decide), by decide⟩

/-! ## Claim theorems: sanitized prerequisites (C4) -/

/-- Counterexample to C4 as stated: the sanitized prerequisite
collection is *not* deduplicated.  With raw prerequisites
`["A", "A"]`, node `B`'s sanitized list keeps both copies. -/
theorem C4_counterexample :
    depsOf exDupDeps "B" = ["A", "A"] ∧ ¬ (depsOf exDupDeps "B").Nodup := by
  decide

/-- C4 (amended): every member of a node's sanitized prerequisite list
is a dataset id different from the node's own id (self-references and
unknown ids are dropped), but the list is not deduplicated — duplicates
of the raw data survive. -/
theorem C4_sanitized (nodes : List TechNode) (id d : String)
    (h : d ∈ depsOf nodes id) : d ≠ id ∧ d ∈ idsOf nodes :=
  depsOf_mem h

/-- Witness for C4 (amended) at the chain scenario: `A` is a sanitized
prerequisite of `B`, differs from `B`, and is a dataset id. -/
theorem C4_sanitized_witness :
    "A" ∈ depsOf exChain "B" ∧ ("A" ≠ "B" ∧ "A" ∈ idsOf exChain) :=
  ⟨by decide, C4_sanitized exChain "B" "A" (by decide)⟩

/-! ## Claim theorems: anchor-preserving zoom (C5) -/

/-- C5: a zoom request clamps the target scale to
`[min_zoom, max_zoom]`, moves the offset by the anchor-preserving
formula, and keeps the content-space point under the anchor fixed
(the anchor defaulting to the viewport center).  The current scale is
positive in every reachable transform (the initial scale is 1 and every
write clamps into `[0.35, 2.5]`). -/
theorem C5_zoom_anchor (rect_w rect_h : ℚ) (current : Transform)
    (next_scale : ℚ) (anchor_x? anchor_y? : Option ℚ)
    (hscale : 0 < current.scale) :
    ZoomSpec rect_w rect_h current next_scale anchor_x? anchor_y? := by
  have hpos : 0 < clamp next_scale min_zoom max_zoom := by
    unfold clamp min_zoom max_zoom
    rw [lt_min_iff]
    constructor
    · norm_num
    · exact lt_of_lt_of_le (by norm_num) (le_max_left _ _)
  have hs : current.scale ≠ 0 := ne_of_gt hscale
  have hs' : clamp next_scale min_zoom max_zoom ≠ 0 := ne_of_gt hpos
  unfold ZoomSpec update_zoom
  refine ⟨rfl, rfl, rfl, ?_, ?_⟩ <;>
    · simp only
      field_simp
      ring

/-- Witness for C5 at scale 1, requested scale 2, anchor `(10, 20)` in a
`100 × 50` viewport. -/
theorem C5_zoom_anchor_witness :
    (0 : ℚ) < (Transform.mk 0 0 1).scale ∧
      ZoomSpec 100 50 (Transform.mk 0 0 1) 2 (some 10) (some 20) :=
  ⟨by norm_num, C5_zoom_anchor 100 50 (Transform.mk 0 0 1) 2 (some 10) (some 20)
    (by norm_num)⟩

/-! ## Claim theorems: the dataset loader (C9) -/

theorem string_length_eq_zero_iff (s : String) : s.length = 0 ↔ s = "" := by
  constructor
  · intro h
    have hd : s.data.length = 0 := h
    have : s.data = [] := List.length_eq_zero.mp hd
    cases s
    simp_all
  · intro h
    subst h
    rfl

theorem parseAll_isSome_iff (parse : String → Option TechNode) :
    ∀ (lines : List String),
      (parseAll parse lines).isSome ↔ ∀ line ∈ lines, (parse line).isSome := by
  intro lines
  induction lines with
  | nil => simp [parseAll]
  | cons line rest ih =>
    simp only [parseAll]
    cases hp : parse line with
    | none =>
      simp only [Option.isSome_none, Bool.false_eq_true, false_iff]
      intro hall
      have hl := hall line (List.mem_cons_self line rest)
      rw [hp] at hl
      simp at hl
    | some n =>
      cases hr : parseAll parse rest with
      | none =>
        simp only [Option.isSome_none, Bool.false_eq_true, false_iff]
        intro hall
        have hsome : (parseAll parse rest).isSome :=
          ih.mpr (fun l hl => hall l (List.mem_cons_of_mem line hl))
        rw [hr] at hsome
        simp at hsome
      | some ns =>
        simp only [Option.isSome_some, true_iff]
        intro l hl
        rcases List.mem_cons.mp hl with rfl | hmem
        · rw [hp]
          simp
        · have hrest : ∀ x ∈ rest, (parse x).isSome := by
            rw [← ih, hr]
            simp
          exact hrest l hmem

theorem parseAll_length (parse : String → Option TechNode) :
    ∀ (lines : List String) (ns : List TechNode),
      parseAll parse lines = some ns → ns.length = lines.length := by
  intro lines
  induction lines with
  | nil =>
    intro ns h
    simp only [parseAll, Option.some.injEq] at h
    rw [← h]
    rfl
  | cons line rest ih =>
    intro ns h
    simp only [parseAll] at h
    cases hp : parse line with
    | none =>
      rw [hp] at h
      simp at h
    | some n =>
      rw [hp] at h
      cases hr : parseAll parse rest with
      | none =>
        rw [hr] at h
        simp at h
      | some ms =>
        rw [hr] at h
        simp only [Option.some.injEq] at h
        rw [← h]
        simp [ih ms hr]

/-- Counterexample to C9 as stated: a malformed (non-JSON) line is not
skipped.  The single line holding one left brace survives the
whitespace filter, and a parse model failing on it (as `JSON.parse` of
that line throws a
`SyntaxError`) makes the whole load fail rather than yield an empty
list. -/
theorem C9_counterexample :
    loadLines ["\x7b"] = ["\x7b"] ∧
      loadNodes (fun _ => none) ["\x7b"] = none := by
  constructor
  · decide
  · rfl

/-- C9 (amended): the loader drops exactly the empty and
whitespace-only lines; it succeeds precisely when every kept line
parses, in which case it yields one record per kept line; a kept line
that fails to parse fails the load (the parse error propagates — the
loader does not skip malformed JSON). -/
theorem C9_loader (parse : String → Option TechNode) (lines : List String) :
    (∀ line ∈ lines,
        (line ∈ loadLines lines ↔ ¬ ∀ c ∈ line.data, c.isWhitespace)) ∧
      ((loadNodes parse lines).isSome ↔
        ∀ line ∈ loadLines lines, (parse line).isSome) ∧
      (∀ ns, loadNodes parse lines = some ns →
        ns.length = (loadLines lines).length) := by
  refine ⟨?_, parseAll_isSome_iff parse (loadLines lines),
    fun ns h => parseAll_length parse (loadLines lines) ns h⟩
  intro line hline
  unfold loadLines
  rw [List.mem_filter]
  constructor
  · rintro ⟨_, hany⟩ hall
    rw [List.any_eq_true] at hany
    obtain ⟨c, hc, hcw⟩ := hany
    rw [hall c hc] at hcw
    simp at hcw
  · intro h
    refine ⟨hline, ?_⟩
    push_neg at h
    obtain ⟨c, hc, hcw⟩ := h
    rw [List.any_eq_true]
    refine ⟨c, hc, ?_⟩
    simp only [Bool.not_eq_true] at hcw
    rw [hcw]
    rfl

/-- Witness for C9: a line list with a parsable line, a whitespace-only
line (dropped) and a failing line. -/
theorem C9_loader_witness :
    (loadNodes (fun s => if s = "bad" then none
        else some (TechNode.mk s s none none none)) ["a", " ", "bad"]).isSome ↔
      ∀ line ∈ loadLines ["a", " ", "bad"],
        ((fun s => if s = "bad" then none
            else some (TechNode.mk s s none none none)) line).isSome :=
  (C9_loader (fun s => if s = "bad" then none
    else some (TechNode.mk s s none none none)) ["a", " ", "bad"]).2.1

/-! ## Claim theorems: selection highlighting (C6) -/

/-- Counterexample to C6 as stated: the highlighted edge *id set*
collapses duplicate ids.  With two copies of the derived edge
`A::B` (as the builder produces when raw data repeats a prerequisite),
the selected node `B` has `k = 2` incoming and `m = 0` outgoing edges,
but the highlighted set has 1 member, not `k + m = 2`. -/
theorem C6_counterexample :
    (incomingEdges exDupEdges "B").length = 2 ∧
      (outgoingEdges exDupEdges "B").length = 0 ∧
      (highlighted_edge_ids exDupEdges "B").card = 1 := by
  decide

/-- C6 (amended): when the edge ids are pairwise distinct and no edge
is a self-loop at the selected node (both hold for builder output on
duplicate-free prerequisite data), the highlighted set has exactly
`k + m` members; and, always, an edge is dimmed exactly when the
highlighted set is non-empty and its id is not in it. -/
theorem C6_highlight (edges : List GraphEdge) (sel : String)
    (hnodup : (edges.map (·.id)).Nodup)
    (hnoself : ∀ e ∈ edges, ¬ (e.from_ = sel ∧ e.to_ = sel)) :
    (highlighted_edge_ids edges sel).card =
        (incomingEdges edges sel).length + (outgoingEdges edges sel).length ∧
      ∀ e, edge_is_dimmed edges sel e ↔
        (0 < (highlighted_edge_ids edges sel).card ∧
          ¬ edge_is_highlighted edges sel e) := by
  constructor
  · have hin : List.Sublist ((incomingEdges edges sel).map (·.id))
        (edges.map (·.id)) :=
      (List.filter_sublist edges).map _
    have hout : List.Sublist ((outgoingEdges edges sel).map (·.id))
        (edges.map (·.id)) :=
      (List.filter_sublist edges).map _
    have hdisj : ((incomingEdges edges sel).map (·.id)).Disjoint
        ((outgoingEdges edges sel).map (·.id)) := by
      intro x hxin hxout
      obtain ⟨e1, he1, hid1⟩ := List.mem_map.mp hxin
      obtain ⟨e2, he2, hid2⟩ := List.mem_map.mp hxout
      have he1e : e1 ∈ edges := List.mem_of_mem_filter he1
      have he2e : e2 ∈ edges := List.mem_of_mem_filter he2
      have heq : e1 = e2 :=
        List.inj_on_of_nodup_map hnodup he1e he2e (hid1.trans hid2.symm)
      have h1 : e1.to_ = sel := by
        have := (List.mem_filter.mp he1).2
        simpa using this
      have h2 : e1.from_ = sel := by
        have := (List.mem_filter.mp he2).2
        rw [← heq] at this
        simpa using this
      exact hnoself e1 he1e ⟨h2, h1⟩
    have hnd : (((incomingEdges edges sel).map (·.id)) ++
        ((outgoingEdges edges sel).map (·.id))).Nodup :=
      (hnodup.sublist hin).append (hnodup.sublist hout) hdisj
    unfold highlighted_edge_ids
    rw [List.toFinset_card_of_nodup hnd]
    simp
  · intro e
    exact Iff.rfl

/-- Witness for C6 (amended) at a single-edge graph with `B` selected:
one incoming, zero outgoing, one highlighted id. -/
theorem C6_highlight_witness :
    ((exTwoLevelsEdges.map (·.id)).Nodup ∧
        ∀ e ∈ exTwoLevelsEdges, ¬ (e.from_ = "B" ∧ e.to_ = "B")) ∧
      ((highlighted_edge_ids exTwoLevelsEdges "B").card =
          (incomingEdges exTwoLevelsEdges "B").length +
            (outgoingEdges exTwoLevelsEdges "B").length ∧
        ∀ e, edge_is_dimmed exTwoLevelsEdges "B" e ↔
          (0 < (highlighted_edge_ids exTwoLevelsEdges "B").card ∧
            ¬ edge_is_highlighted exTwoLevelsEdges "B" e)) :=
  ⟨⟨by decide, by decide⟩, C6_highlight exTwoLevelsEdges "B" (by decide) (by decide)⟩

/-! ## Claim theorems: within-level ordering (C7) -/

theorem lexLeb_refl : ∀ (x : List Char), lexLeb x x = true := by
  intro x
  induction x with
  | nil => rfl
  | cons c cs ih => simp [lexLeb, ih]

/-- Inserting into a list moves the element before the first position
whose title is not smaller; restricted to any one title, the insertion
lands in front exactly when the element carries that title. -/
theorem orderedInsert_filter_title (t : String) (a : GraphNode) :
    ∀ (s : List GraphNode),
      (List.orderedInsert titleLe a s).filter (fun n => n.title = t) =
        if a.title = t then a :: s.filter (fun n => n.title = t)
        else s.filter (fun n => n.title = t) := by
  intro s
  induction s with
  | nil =>
    by_cases h : a.title = t <;> simp [List.orderedInsert, h]
  | cons b s ih =>
    simp only [List.orderedInsert]
    by_cases hab : titleLe a b
    · rw [if_pos hab]
      by_cases hat : a.title = t
      · simp [hat]
      · simp [hat]
    · rw [if_neg hab]
      by_cases hbt : b.title = t
      · by_cases hat : a.title = t
        · refine absurd ?_ hab
          unfold titleLe
          rw [show a.title = b.title from hat.trans hbt.symm]
          exact lexLeb_refl _
        · simp [hbt, hat, ih]
      · by_cases hat : a.title = t <;> simp [hbt, hat, ih]

/-- Stability of the modeled sort: restricted to any one title, the
sorted list equals the input list (equal-title nodes keep their input
order). -/
theorem insertionSort_filter_title (t : String) :
    ∀ (l : List GraphNode),
      (List.insertionSort titleLe l).filter (fun n => n.title = t) =
        l.filter (fun n => n.title = t) := by
  intro l
  induction l with
  | nil => rfl
  | cons a l ih =>
    have hstep : List.insertionSort titleLe (a :: l) =
        List.orderedInsert titleLe a (List.insertionSort titleLe l) := rfl
    rw [hstep, orderedInsert_filter_title]
    by_cases hat : a.title = t
    · rw [if_pos hat, ih]
      simp [hat]
    · rw [if_neg hat, ih]
      simp [hat]

/-- Counterexample to C7 as stated: title ties are *not* broken by node
id.  In `exTitleTie` both nodes have title `"T"` and the dataset order
is `B` before `A`; the claimed id tie-break would put `A` (the
lexicographically smaller id) first within the row, but the layout's
within-level order (`sortedLevel`, along which `build_layout` assigns
increasing x coordinates) keeps the dataset order `B`, `A`. -/
theorem C7_counterexample :
    exTitleTie.map (fun n => n.title) = ["T", "T"] ∧
      lexLeb "A".data "B".data = true ∧ ("A" : String) ≠ "B" ∧
      (sortedLevel exTitleTie 0).map (fun n => n.id) = ["B", "A"] := by
  refine ⟨by decide, by decide, by decide, by decide⟩

/-- C7 (amended): within every level the layout's order is the stable
sort by title: it is sorted by (code-point lexicographic) title, it is
a permutation of the level's nodes in dataset order, and nodes of equal
title keep their dataset order (no id tie-break). -/
theorem C7_within_level_order (nodes : List GraphNode) (l : Nat) :
    List.Sorted titleLe (sortedLevel nodes l) ∧
      (sortedLevel nodes l).Perm (levelGroup nodes l) ∧
      ∀ t, (sortedLevel nodes l).filter (fun n => n.title = t) =
        (levelGroup nodes l).filter (fun n => n.title = t) :=
  ⟨List.sorted_insertionSort titleLe (levelGroup nodes l),
    List.perm_insertionSort titleLe (levelGroup nodes l),
    fun t => insertionSort_filter_title t (levelGroup nodes l)⟩

/-! ## Claim theorems: edge paths (C8) -/

/-- Every id with a position also has a size: `positions` is keyed by
the laid-out nodes' ids and `sizes` by all nodes' ids. -/
theorem positions_key_sizes {nodes : List GraphNode} {id : String}
    (h : (mapGet? (build_layout nodes).positions id).isSome) :
    (mapGet? (build_layout nodes).sizes id).isSome := by
  have h2 : (mapGet? (positionsOf nodes) id).isSome := h
  show (mapGet? (sizesOf nodes) id).isSome
  rw [mapGet?_isSome_iff] at h2 ⊢
  clear h
  have h := h2
  have hs : (sizesOf nodes).map Prod.fst = nodes.map (·.id) := by
    simp [sizesOf, List.map_map, Function.comp]
  rw [hs]
  obtain ⟨p, hp, hpid⟩ := List.mem_map.mp h
  obtain ⟨L, hL, hpL⟩ := List.mem_flatten.mp hp
  obtain ⟨l, _, hLrow⟩ := List.mem_map.mp hL
  rw [← hLrow] at hpL
  obtain ⟨q, hq, hqp⟩ := List.mem_map.mp hpL
  have hq2 : q.2 ∈ sortedLevel nodes l := List.snd_mem_of_mem_enum hq
  have hq3 : q.2 ∈ levelGroup nodes l :=
    (List.perm_insertionSort titleLe (levelGroup nodes l)).mem_iff.mp hq2
  have hq4 : q.2 ∈ nodes := List.mem_of_mem_filter hq3
  rw [← hpid, ← hqp]
  exact List.mem_map.mpr ⟨q.2, hq4, rfl⟩

/-- Characterization of the drawn-edge arrow: it yields a pair exactly
when both endpoints have positions and the edge is not a self-loop. -/
theorem edgePathFn_eq_some {layout : Layout} {a : GraphEdge}
    {pr : GraphEdge × EdgePath} :
    edgePathFn layout a = some pr ↔
      ∃ fp tp, mapGet? layout.positions a.from_ = some fp ∧
        mapGet? layout.positions a.to_ = some tp ∧ a.from_ ≠ a.to_ ∧
        pr = (a, mkEdgePath layout a fp tp) := by
  unfold edgePathFn
  cases hfp : mapGet? layout.positions a.from_ with
  | none =>
    cases htp : mapGet? layout.positions a.to_ with
    | none => simp
    | some tp => simp
  | some fp =>
    cases htp : mapGet? layout.positions a.to_ with
    | none => simp
    | some tp =>
      dsimp only
      by_cases hne : a.from_ = a.to_
      · rw [if_pos hne]
        simp [hne]
      · rw [if_neg hne]
        constructor
        · intro h
          exact ⟨fp, tp, rfl, rfl, hne, (Option.some.inj h).symm⟩
        · rintro ⟨fp', tp', hfp', htp', _, hpr⟩
          rw [← Option.some.inj hfp', ← Option.some.inj htp'] at hpr
          rw [hpr]

/-- C8 (amended): an edge is drawn exactly when both endpoints are in
the position map and it is not a self-loop; and every drawn edge's
cubic path starts at the horizontal midpoint of the source's bottom
edge, ends at the horizontal midpoint of the target's top edge, and has
*both* control points at the same height, 55% of the way down from the
start — so the second control point is offset 45% (not 55%) of the
vertical distance from the end anchor. -/
theorem C8_edge_paths (nodes : List GraphNode) (edges : List GraphEdge)
    (e : GraphEdge) (he : e ∈ edges) :
    ((∃ p, (e, p) ∈ edges_with_paths (build_layout nodes) edges) ↔
      ((mapGet? (build_layout nodes).positions e.from_).isSome ∧
        (mapGet? (build_layout nodes).positions e.to_).isSome ∧
          e.from_ ≠ e.to_)) ∧
      ∀ p, (e, p) ∈ edges_with_paths (build_layout nodes) edges →
        DrawnPathSpec (build_layout nodes) e p := by
  constructor
  · constructor
    · rintro ⟨p, hp⟩
      obtain ⟨a, _, hfa⟩ := List.mem_filterMap.mp hp
      obtain ⟨fp, tp, hfp, htp, hne, hpr⟩ := edgePathFn_eq_some.mp hfa
      have hae : a = e := congrArg Prod.fst hpr.symm
      subst hae
      rw [hfp, htp]
      exact ⟨by simp, by simp, hne⟩
    · rintro ⟨hf, ht, hne⟩
      obtain ⟨fp, hfp⟩ := Option.isSome_iff_exists.mp hf
      obtain ⟨tp, htp⟩ := Option.isSome_iff_exists.mp ht
      exact ⟨mkEdgePath (build_layout nodes) e fp tp,
        List.mem_filterMap.mpr ⟨e, he,
          edgePathFn_eq_some.mpr ⟨fp, tp, hfp, htp, hne, rfl⟩⟩⟩
  · intro p hp
    obtain ⟨a, _, hfa⟩ := List.mem_filterMap.mp hp
    obtain ⟨fp, tp, hfp, htp, hne, hpr⟩ := edgePathFn_eq_some.mp hfa
    have hae : a = e := congrArg Prod.fst hpr.symm
    subst hae
    have hpe : p = mkEdgePath (build_layout nodes) a fp tp :=
      congrArg Prod.snd hpr
    have hfs : (mapGet? (build_layout nodes).sizes a.from_).isSome :=
      positions_key_sizes (by rw [hfp]; rfl)
    have hts : (mapGet? (build_layout nodes).sizes a.to_).isSome :=
      positions_key_sizes (by rw [htp]; rfl)
    obtain ⟨fs, hfs'⟩ := Option.isSome_iff_exists.mp hfs
    obtain ⟨ts, hts'⟩ := Option.isSome_iff_exists.mp hts
    refine ⟨fp, tp, fs, ts, hfp, htp, hfs', hts', ?_, ?_, ?_, ?_⟩ <;>
      · rw [hpe]
        unfold mkEdgePath
        rw [hfs', hts']
        try simp

/-- Counterexample to C8 as stated: in the two-level example the drawn
edge runs from `(230, 248)` to `(230, 358)`, and *both* control points
sit at `y = 617/2 = 308.5` — 55% of the way down from the start.  The
claimed position of the second control point, 55% of the vertical
distance up from the end anchor, is `358 - (358 - 248) * 0.55 = 297.5`,
which the generated path does not use. -/
theorem C8_counterexample :
    edges_with_paths (build_layout exTwoLevels) exTwoLevelsEdges =
      [(⟨"A::B", "A", "B"⟩,
        ⟨(230, 248), (230, 617 / 2), (230, 617 / 2), (230, 358)⟩)] ∧
      (617 : ℚ) / 2 ≠ 358 - (358 - 248) * (0.55 : ℚ) := by
  constructor
  · simp only [edges_with_paths, edgePathFn, mkEdgePath, build_layout, positionsOf,
      rowPositions, sortedLevel, levelGroup, maxLevelOf, exTwoLevels, exTwoLevelsEdges,
      listMax, sizesOf, offsetX, rowY, rowHeight, rowWidth, layoutWidth, layoutHeight,
      maxNodesPerLevel, dedupFirst, get_node_height, get_science_pack_icons, mapGet?,
      mget?, node_width, node_gap_x, node_gap_y, canvas_padding, node_padding_y,
      node_item_gap, node_icon_size, node_title_height, node_meta_height,
      List.filterMap, List.find?, List.filter, List.enum, List.enumFrom, List.map,
      List.range, List.flatten, List.foldl, List.insertionSort, List.orderedInsert,
      List.reverse, List.reverseAux, String.reduceBEq, String.reduceEq, Option.map,
      Option.getD, Function.comp]
    norm_num
  · norm_num

/-- Witness for C8 (amended) at the two-level example's single edge. -/
theorem C8_edge_paths_witness :
    ((⟨"A::B", "A", "B"⟩ : GraphEdge) ∈ exTwoLevelsEdges) ∧
      (((∃ p, ((⟨"A::B", "A", "B"⟩ : GraphEdge), p) ∈
          edges_with_paths (build_layout exTwoLevels) exTwoLevelsEdges) ↔
        ((mapGet? (build_layout exTwoLevels).positions
            (GraphEdge.mk "A::B" "A" "B").from_).isSome ∧
          (mapGet? (build_layout exTwoLevels).positions
            (GraphEdge.mk "A::B" "A" "B").to_).isSome ∧
            (GraphEdge.mk "A::B" "A" "B").from_ ≠ (GraphEdge.mk "A::B" "A" "B").to_)) ∧
        ∀ p, ((⟨"A::B", "A", "B"⟩ : GraphEdge), p) ∈
            edges_with_paths (build_layout exTwoLevels) exTwoLevelsEdges →
          DrawnPathSpec (build_layout exTwoLevels) ⟨"A::B", "A", "B"⟩ p) :=
  ⟨by decide,
    C8_edge_paths exTwoLevels exTwoLevelsEdges ⟨"A::B", "A", "B"⟩ (by decide)⟩

/-! ## Claim theorems: the image route (C10) -/

theorem dropCommon_fst_nil_iff {α : Type} [DecidableEq α] :
    ∀ (f t : List α), (dropCommon f t).1 = [] ↔ f <+: t := by
  intro f
  induction f with
  | nil =>
    intro t
    simp [dropCommon]
  | cons a as ih =>
    intro t
    cases t with
    | nil => simp [dropCommon]
    | cons b bs =>
      simp only [dropCommon]
      by_cases hab : a = b
      · rw [if_pos hab]
        subst hab
        rw [ih bs]
        simp [List.cons_prefix_cons]
      · rw [if_neg hab]
        constructor
        · intro h
          simp at h
        · intro h
          rw [List.cons_prefix_cons] at h
          exact absurd h.1 hab

/-- Outside the base directory, `resolveImagePath` rejects: the
leftover base segments make the relative path start with `".."`. -/
theorem resolveImagePath_none_of_outside {cwd : List (List Char)} {raw : String}
    (h : ¬ baseSegs cwd <+: resolveSegs cwd raw) :
    resolveImagePath cwd raw = none := by
  unfold resolveImagePath
  have hfst : (dropCommon (baseSegs cwd) (resolveSegs cwd raw)).1 ≠ [] := by
    intro hnil
    exact h ((dropCommon_fst_nil_iff _ _).mp hnil)
  cases hd : (dropCommon (baseSegs cwd) (resolveSegs cwd raw)).1 with
  | nil => exact absurd hd hfst
  | cons x xs =>
    have hrel : relStartsDotDot (pathRelSegs (baseSegs cwd) (resolveSegs cwd raw)) =
        true := by
      unfold pathRelSegs
      rw [hd]
      rfl
    simp only [hrel]
    rfl

/-- An accepted path is inside the base directory: acceptance forces
the relative path to carry no leftover base segments. -/
theorem resolveImagePath_some_inside {cwd : List (List Char)} {raw : String}
    {p : List (List Char)} (h : resolveImagePath cwd raw = some p) :
    baseSegs cwd <+: resolveSegs cwd raw := by
  by_contra hout
  rw [resolveImagePath_none_of_outside hout] at h
  exact Option.noConfusion h

/-- C10 (amended): a missing or empty `path` parameter yields 400; a
path resolving outside `data/tech_images` yields 400 without any file
read (the response does not depend on the filesystem); an accepted path
is always inside the base directory, and a failed read on it yields
404, a successful read 200 — but a path *inside* the base whose
relative path happens to start with the characters `".."` (a basename
such as `..foo`) is also rejected with 400, so "inside implies a read
is attempted" does not hold as stated.  The handler is a total
function: it never throws. -/
theorem C10_route (fsRead fsRead' : List (List Char) → Option String)
    (cwd : List (List Char)) (raw : String) (p : List (List Char)) :
    GET fsRead cwd none = ⟨400, none⟩ ∧
      GET fsRead cwd (some "") = ⟨400, none⟩ ∧
      (resolveImagePath cwd raw = none →
        GET fsRead cwd (some raw) = ⟨400, none⟩ ∧
          GET fsRead cwd (some raw) = GET fsRead' cwd (some raw)) ∧
      (¬ baseSegs cwd <+: resolveSegs cwd raw →
        resolveImagePath cwd raw = none) ∧
      (raw ≠ "" → resolveImagePath cwd raw = some p →
        (baseSegs cwd <+: resolveSegs cwd raw) ∧
          (fsRead p = none → GET fsRead cwd (some raw) = ⟨404, none⟩) ∧
          (∀ b, fsRead p = some b → GET fsRead cwd (some raw) = ⟨200, some b⟩)) := by
  refine ⟨rfl, rfl, ?_, fun h => resolveImagePath_none_of_outside h, ?_⟩
  · intro hnone
    have key : ∀ (g : List (List Char) → Option String),
        GET g cwd (some raw) = ⟨400, none⟩ := by
      intro g
      simp only [GET]
      by_cases hraw : raw = ""
      · rw [if_pos hraw]
      · rw [if_neg hraw, hnone]
    exact ⟨key fsRead, (key fsRead).trans (key fsRead').symm⟩
  · intro hraw hsome
    refine ⟨resolveImagePath_some_inside hsome, ?_, ?_⟩
    · intro hread
      simp only [GET]
      rw [if_neg hraw, hsome]
      dsimp only
      rw [hread]
    · intro b hread
      simp only [GET]
      rw [if_neg hraw, hsome]
      dsimp only
      rw [hread]

/-- Counterexample to C10 as stated: the file
`/srv/data/tech_images/..f` is inside the base directory and every read
fails, so part (iii) of the claim demands a 404 — but the handler
answers 400: the relative path `..f` starts with the characters `".."`
and is conservatively rejected before any read. -/
theorem C10_counterexample :
    baseSegs ["srv".data] <+: resolveSegs ["srv".data] "data/tech_images/..f" ∧
      GET (fun _ => none) ["srv".data] (some "data/tech_images/..f") =
        ⟨400, none⟩ := by
  constructor
  · decide
  · decide

/-- Witness for C10 at a well-formed request: an accepted path inside
the base whose read succeeds is served with 200. -/
theorem C10_route_witness :
    ("data/tech_images/x.png" ≠ "" ∧
        resolveImagePath ["srv".data] "data/tech_images/x.png" =
          some ["srv".data, "data".data, "tech_images".data, "x.png".data]) ∧
      (baseSegs ["srv".data] <+:
          resolveSegs ["srv".data] "data/tech_images/x.png" ∧
        ((fun _ => some "bytes") (["srv".data, "data".data, "tech_images".data,
            "x.png".data] : List (List Char)) = none →
          GET (fun _ => some "bytes") ["srv".data]
            (some "data/tech_images/x.png") = ⟨404, none⟩) ∧
        (∀ b, (fun _ => some "bytes") (["srv".data, "data".data,
            "tech_images".data, "x.png".data] : List (List Char)) = some b →
          GET (fun _ => some "bytes") ["srv".data]
            (some "data/tech_images/x.png") = ⟨200, some b⟩)) :=
  ⟨⟨by decide, by decide⟩,
    (C10_route (fun _ => some "bytes") (fun _ => some "bytes") ["srv".data]
      "data/tech_images/x.png"
      ["srv".data, "data".data, "tech_images".data, "x.png".data]).2.2.2.2
      (by decide) (by decide)⟩
